import Mathlib

/-!
# Verification of the CryptoProt modular-arithmetic, secret-sharing,
# threshold-ElGamal and accumulator code

This file gives a shallow embedding of the Python sources
(Exercise04/ex04_4-2-a.py, Exercise09/Ordiales_Inaky_09.py,
Exercise10/sol10.py, Exercise10/Ordiales_Inaky_10-1.py,
Exercise11/accumulator.py) and proves or refutes the specification
claims about them.

Conventions of the embedding:
* Python integers are `ℤ` (or `ℕ` in the accumulator, whose values are
  all non-negative); Python `%` on a positive modulus coincides with
  Lean's `Int.emod` / `Nat.mod`.
* Randomly sampled values (polynomial coefficients, share x-coordinates,
  secret exponents, the accumulator base) are passed as explicit
  parameters, so theorems quantify over all possible random choices.
* The accumulator's hash-to-prime `H` (a SHA-256 based map to primes) is
  passed as an opaque function parameter `H : ℤ → String → ℕ`; the
  claims only constrain its outputs (primality / coprimality), never its
  definition.
* Loops become folds or structural recursion; Python exceptions do not
  occur in the embedded fragments (all operations there are total).
-/

/-! ## Shared utility functions

`power` and `modInverse` appear verbatim (same algorithm, same code) in
Exercise04/ex04_4-2-a.py (`power`), Exercise09/Ordiales_Inaky_09.py,
Exercise10/sol10.py and Exercise10/Ordiales_Inaky_10-1.py.  They are
embedded once and shared by all namespaces below. -/

/-- The `while e > 0` loop of `power`: squares the base when the
exponent is even, multiplies into the accumulator when it is odd.  The
first argument is fuel bounding the number of iterations; the exponent
strictly decreases each iteration, so fuel equal to the initial
exponent is always sufficient (see `powerLoop_fuel`). -/
def powerLoop (p : ℤ) : ℕ → ℕ → ℤ → ℤ → ℤ
  | 0, _, _, result => result
  | _ + 1, 0, _, result => result
  | fuel + 1, e, x, result =>
    if e % 2 = 0 then powerLoop p fuel (e / 2) (x * x % p) result
    else powerLoop p fuel (e - 1) x (result * x % p)

/-- `power(x, e, p)` from the sources: normalizes the base mod `p`,
returns `0` if the normalized base is `0` (even for exponent 0), else
runs the square-and-multiply loop.  A non-positive exponent skips the
loop, as in Python. -/
def power (x e p : ℤ) : ℤ :=
  let x' := x % p
  if x' = 0 then 0 else powerLoop p e.toNat e.toNat x' 1

/-- `modInverse(x, q)` from the sources: adds `q` once if `x` is
negative, then computes `x ^ (q - 2) mod q` via `power`. -/
def modInverse (x q : ℤ) : ℤ :=
  power (if x < 0 then q + x else x) (q - 2) q

/-! ## Exercise09/Ordiales_Inaky_09.py: Shamir secret sharing -/

namespace Ex09

/-- `generateCoefficients(x, f, q)`: the secret is the first
coefficient, followed by the `f` randomly sampled coefficients `rs`
(we pass the samples explicitly; the code draws them with
`random.randint(0, q)`). -/
def generateCoefficients (x : ℤ) (rs : List ℤ) : List ℤ := x :: rs

/-- `polynomial(val, coefficients, f, q)`: folds over `i = 0..f`,
accumulating `coefficients[i] * power(val, i, q)` and reducing mod `q`
each step. -/
def polynomial (val : ℤ) (coefficients : List ℤ) (f : ℕ) (q : ℤ) : ℤ :=
  (List.range (f + 1)).foldl
    (fun polVal i => (polVal + coefficients.getD i 0 * power val (i : ℤ) q) % q) 0

/-- `share(x, f, n, q)`: evaluates the polynomial at `i = 1..n`,
returning the list of pairs `(i, polynomial(i))`. -/
def share (x : ℤ) (f n : ℕ) (q : ℤ) (rs : List ℤ) : List (ℤ × ℤ) :=
  (List.range' 1 n).map fun (i : ℕ) =>
    ((i : ℤ), polynomial (i : ℤ) (generateCoefficients x rs) f q)

/-- The inner `for j` loop of `reconstruct`: starting from
`(numerator, denominator) = (1, 1)`, accumulates `numerator * x_j mod
q` and `denominator * (x_j - x_i) mod q` over all `j != i`. -/
def numden (shares : List (ℤ × ℤ)) (q : ℤ) (i : ℕ) : ℤ × ℤ :=
  (List.range shares.length).foldl
    (fun (nd : ℤ × ℤ) j =>
      if i ≠ j then
        (nd.1 * (shares.getD j (0, 0)).1 % q,
         nd.2 * ((shares.getD j (0, 0)).1 - (shares.getD i (0, 0)).1) % q)
      else nd)
    (1, 1)

/-- `reconstruct(shares, q)`: Lagrange interpolation at `0`.  For each
`i`, the inner loop (`numden`) accumulates the numerator and the
denominator, then the secret accumulates
`modInverse(denominator, q) * (numerator * y_i)` mod `q`. -/
def reconstruct (shares : List (ℤ × ℤ)) (q : ℤ) : ℤ :=
  (List.range shares.length).foldl
    (fun secret i =>
      (secret + modInverse (numden shares q i).2 q *
        ((numden shares q i).1 * (shares.getD i (0, 0)).2)) % q)
    0

end Ex09


/-! ## Exercise10/sol10.py: threshold ElGamal (course solution) -/

namespace Sol10

/-- `generateCoefficients(x, f, q)` from sol10.py: `f` random
coefficients (passed explicitly as `rs`) followed by the secret, so the
secret is the constant term of the decreasing-degree polynomial. -/
def generateCoefficients (x : ℤ) (rs : List ℤ) : List ℤ := rs ++ [x]

/-- `polynomial(val, coefficients, f, q)` from sol10.py: enumerates the
coefficients, coefficient `i` multiplying `power(val, f - i, q)`,
reducing mod `q` each step. -/
def polynomial (val : ℤ) (coefficients : List ℤ) (f : ℕ) (q : ℤ) : ℤ :=
  coefficients.enum.foldl
    (fun total ic => (total + ic.2 * power val ((f : ℤ) - ic.1) q) % q) 0

/-- `share(x, f, n, q)` from sol10.py: evaluates the polynomial at `n`
x-coordinates sampled by `random.randint(0, q-1)` (passed explicitly as
`xs`) -- not at `1..n`. -/
def share (x : ℤ) (f n : ℕ) (q : ℤ) (xs rs : List ℤ) : List (ℤ × ℤ) :=
  (List.range n).map fun i =>
    (xs.getD i 0, polynomial (xs.getD i 0) (generateCoefficients x rs) f q)

/-- `KeyGen(p, q, g, n, f)`: samples the secret exponent `s` (passed
explicitly), shares it mod `q`, and returns the public key
`g ^ s mod p` with the share list. -/
def KeyGen (p q g : ℤ) (n f : ℕ) (s : ℤ) (xs rs : List ℤ) : ℤ × List (ℤ × ℤ) :=
  (power g s p, share s f n q xs rs)

/-- `encrypt(p, q, g, pk, m)` with explicit ephemeral exponent `r`:
`(R, C) = (g ^ r mod p, pk ^ r * m mod p)`. -/
def encrypt (p q g pk m r : ℤ) : ℤ × ℤ :=
  (power g r p, power pk r p * m % p)

/-- `decrypt(p, q, g, pk, sk, c)`: partial decryption
`(x_i, R ^ sk_i mod p)`. -/
def decrypt (p q g pk : ℤ) (sk : ℤ × ℤ) (c : ℤ × ℤ) : ℤ × ℤ :=
  (sk.1, power c.1 sk.2 p)

/-- The inner `for j` loop of `recover`: the Lagrange exponent `exp`
for partial decryption `i`, accumulating
`exp * (x_j % q) * modInverse(x_j - x_i, q) mod q` over `j != i`. -/
def lagExp (D : List (ℤ × ℤ)) (q : ℤ) (i : ℕ) : ℤ :=
  (List.range D.length).foldl
    (fun exp j =>
      if i ≠ j then
        exp * ((D.getD j (0, 0)).1 % q) *
          modInverse ((D.getD j (0, 0)).1 - (D.getD i (0, 0)).1) q % q
      else exp)
    1

/-- `recover(p, q, g, D, c)`: for each partial decryption `d_i`,
computes the Lagrange coefficient `lagExp` mod `q`, multiplies
`d_i ^ exp mod p` into `prod`, and finally returns
`C * modInverse(prod, p) mod p`. -/
def recover (p q g : ℤ) (D : List (ℤ × ℤ)) (c : ℤ × ℤ) : ℤ :=
  c.2 * modInverse
    ((List.range D.length).foldl
      (fun prod i => prod * power (D.getD i (0, 0)).2 (lagExp D q i) p % p) 1)
    p % p

end Sol10

/-! ## Exercise10/Ordiales_Inaky_10-1.py: threshold ElGamal (graded
submission).  Its `share`, `generateCoefficients`, `polynomial` and
`reconstruct` bodies are textually identical to the Exercise09 ones
(only the modulus argument is named `p`), so they are shared. -/

namespace Ord10

/-- `share` of Ordiales_Inaky_10-1.py: same code as Exercise09's. -/
def share : ℤ → ℕ → ℕ → ℤ → List ℤ → List (ℤ × ℤ) := Ex09.share

/-- `KeyGen(g, q, p, f, n)`: samples `x` (explicit), returns the list
`[x, y, xi]` modelled as a triple; note the shares are generated with
`share(x, f, n, p)` -- modulus `p`, not `q`. -/
def KeyGen (g q p : ℤ) (f n : ℕ) (x : ℤ) (rs : List ℤ) : ℤ × ℤ × List (ℤ × ℤ) :=
  (x, power g x p, share x f n p rs)

/-- The share-recombination loop of `Recover(S, C, p, q)` (lines
113-128): produces the `value` that is subsequently SHA-256-hashed and
XORed with `C`; the hashing is outside the arithmetic modelled here.
Each `numerator`, `denominator` and `lamb` is reduced mod `p` (not mod
`q`; the parameter `q` of `Recover` is never used in this loop). -/
def RecoverValue (S : List (ℤ × ℤ)) (p : ℤ) : ℤ :=
  (List.range S.length).foldl
    (fun value i =>
      let nd := (List.range S.length).foldl
        (fun (nd : ℤ × ℤ) j =>
          if i ≠ j then
            (nd.1 * (S.getD j (0, 0)).1 % p,
             nd.2 * ((S.getD j (0, 0)).1 - (S.getD i (0, 0)).1) % p)
          else nd)
        (1, 1)
      value * power (S.getD i (0, 0)).2 (modInverse nd.2 p * nd.1 % p) p % p)
    1

end Ord10

/-! ## Exercise11/accumulator.py: RSA-style dynamic accumulator.

The hash-to-prime `H(i, x) = hash_to_prime(str(i) + x, seed)` is passed
as an opaque parameter `H : ℤ → String → ℕ` (the index may be negative,
and `str(i)` then differs from `str(n + i)`, so `H` genuinely takes the
signed index).  Python's built-in three-argument `pow` on naturals is
`a ^ e % N`; `pow(a, -1, phi)` is the modular inverse, modelled by
`invMod`. -/

namespace Acc

/-- Python `pow(a, -1, m)`: the least modular inverse of `a` mod `m`
(the code only calls it on arguments coprime to `m`, where it exists;
see `invMod_spec`). -/
def invMod (a m : ℕ) : ℕ :=
  (((List.range m).find? fun b => a * b % m == 1).getD 0)

/-- Python `pow(a, e, N)` on naturals. -/
def pypow (a e N : ℕ) : ℕ := a ^ e % N

/-- Python negative-index list access: `l[i]` reads slot `len + i` when
`i < 0`. -/
def pyIdx (i : ℤ) (len : ℕ) : ℕ :=
  if i < 0 then (i + len).toNat else i.toNat

/-- The mutable state of an `Accumulator` object: modulus `N = p * q`,
`phi = (p - 1) * (q - 1)`, current value `alpha`, per-slot values `x`,
per-slot witnesses `w`, capacity `n`. -/
structure AccState where
  N : ℕ
  phi : ℕ
  alpha : ℕ
  x : List String
  w : List ℕ
  n : ℕ
deriving DecidableEq

/-- `Accumulator.__init__(p, q, n, seed)`: all slots start at `""`;
`prod` multiplies the (unreduced) inverses `pow(H(i,""), -1, phi) % N`;
`alpha = r ^ prod mod N` for the random base `r`; each witness is
`alpha ^ (H(i,"")^-1 mod phi) mod N`. -/
def init (H : ℤ → String → ℕ) (p q n r : ℕ) : AccState :=
  let N := p * q
  let phi := (p - 1) * (q - 1)
  let prod := ((List.range n).map fun (i : ℕ) => invMod (H (i : ℤ) "") phi % N).prod
  let alpha := pypow r prod N
  { N := N
    phi := phi
    alpha := alpha
    x := List.replicate n ""
    w := (List.range n).map fun (i : ℕ) => pypow alpha (invMod (H (i : ℤ) "") phi) N
    n := n }

/-- `Accumulator.update(i, v)`: returns `False` untouched if slot `i`
already holds `v`; otherwise re-exponentiates `alpha` and every witness
`w[j]` with `j != i` by `hi * pv`, stores `v`, and returns `True`.
The loop compares the loop counter `j : 0..n-1` with the raw (possibly
negative) argument `i`. -/
def update (H : ℤ → String → ℕ) (st : AccState) (i : ℤ) (v : String) :
    Bool × AccState :=
  let xi := st.x.getD (pyIdx i st.x.length) ""
  if xi = v then (false, st)
  else
    let pv := H i v
    let px := H i xi
    let hi := invMod px st.phi
    { fst := true
      snd :=
        { st with
          alpha := pypow st.alpha (hi * pv) st.N
          w := (List.range st.n).map fun (j : ℕ) =>
            if (j : ℤ) = i then st.w.getD j 0
            else pypow (st.w.getD j 0) (hi * pv) st.N
          x := st.x.set (pyIdx i st.x.length) v } }

/-- `Accumulator.proof(i, x)`: the stored witness raised to `H(i, x)`
mod `N`. -/
def proof (H : ℤ → String → ℕ) (st : AccState) (i : ℤ) (v : String) : ℕ :=
  pypow (st.w.getD (pyIdx i st.w.length) 0) (H i v) st.N

/-- `Accumulator.is_member(i, x)`: `False` if the stored value differs,
else compares `proof(i, x)` with `alpha`. -/
def is_member (H : ℤ → String → ℕ) (st : AccState) (i : ℤ) (v : String) : Bool :=
  if st.x.getD (pyIdx i st.x.length) "" ≠ v then false
  else proof H st i v == st.alpha

/-- A sequence of `update` calls (discarding the returned booleans). -/
def runUpdates (H : ℤ → String → ℕ) (st : AccState) (ops : List (ℤ × String)) :
    AccState :=
  ops.foldl (fun s op => (update H s op.1 op.2).2) st

end Acc

/-- The result of the loop does not depend on the fuel, as long as the
fuel is at least the exponent. -/
lemma powerLoop_fuel (p : ℤ) (fuel fuel' e : ℕ) (he : e ≤ fuel) (he' : e ≤ fuel')
    (x result : ℤ) : powerLoop p fuel e x result = powerLoop p fuel' e x result := by
  induction fuel generalizing fuel' e x result with
  | zero =>
    have : e = 0 := Nat.le_zero.mp he
    subst this
    cases fuel' <;> rfl
  | succ fuel ih =>
    cases fuel' with
    | zero =>
      have : e = 0 := Nat.le_zero.mp he'
      subst this
      rfl
    | succ fuel' =>
      cases e with
      | zero => rfl
      | succ e =>
        show (if (e + 1) % 2 = 0 then _ else _) = (if (e + 1) % 2 = 0 then _ else _)
        by_cases h2 : (e + 1) % 2 = 0
        · rw [if_pos h2, if_pos h2]
          exact ih _ _ (by omega) (by omega) _ _
        · rw [if_neg h2, if_neg h2]
          exact ih _ _ (by omega) (by omega) _ _

lemma powerLoop_modeq (p : ℤ) (fuel e : ℕ) (he : e ≤ fuel) (x result : ℤ) :
    powerLoop p fuel e x result ≡ result * x ^ e [ZMOD p] := by
  induction fuel generalizing e x result with
  | zero =>
    have : e = 0 := Nat.le_zero.mp he
    subst this
    simp only [powerLoop, pow_zero, mul_one]
    exact Int.ModEq.refl result
  | succ fuel ih =>
    cases e with
    | zero =>
      simp only [powerLoop, pow_zero, mul_one]
      exact Int.ModEq.refl result
    | succ e =>
      show (if (e + 1) % 2 = 0 then _ else _) ≡ _ [ZMOD p]
      by_cases h2 : (e + 1) % 2 = 0
      · rw [if_pos h2]
        refine (ih _ (by omega) _ _).trans ?_
        have hx : x * x % p ≡ x * x [ZMOD p] := Int.emod_emod_of_dvd _ dvd_rfl
        calc result * (x * x % p) ^ ((e + 1) / 2)
            ≡ result * (x * x) ^ ((e + 1) / 2) [ZMOD p] :=
              Int.ModEq.mul_left result (Int.ModEq.pow _ hx)
          _ = result * x ^ (e + 1) := by
              rw [← pow_two, ← pow_mul, Nat.mul_div_cancel' (Nat.dvd_of_mod_eq_zero h2)]
      · rw [if_neg h2]
        refine (ih _ (by omega) _ _).trans ?_
        have hx : result * x % p ≡ result * x [ZMOD p] := Int.emod_emod_of_dvd _ dvd_rfl
        calc result * x % p * x ^ (e + 1 - 1)
            ≡ result * x * x ^ e [ZMOD p] := Int.ModEq.mul_right _ hx
          _ = result * x ^ (e + 1) := by ring

lemma powerLoop_bound (p : ℤ) (hp : 0 < p) (fuel e : ℕ) (he : 0 < e) (hef : e ≤ fuel)
    (x result : ℤ) :
    0 ≤ powerLoop p fuel e x result ∧ powerLoop p fuel e x result < p := by
  induction fuel generalizing e x result with
  | zero => omega
  | succ fuel ih =>
    cases e with
    | zero => omega
    | succ e =>
      show 0 ≤ (if (e + 1) % 2 = 0 then _ else _) ∧ (if (e + 1) % 2 = 0 then _ else _) < p
      by_cases h2 : (e + 1) % 2 = 0
      · rw [if_pos h2]
        exact ih _ (by omega) (by omega) _ _
      · rw [if_neg h2]
        rcases Nat.eq_zero_or_pos e with rfl | hpos
        · rw [show (0 + 1 - 1 : ℕ) = 0 from rfl,
              powerLoop_fuel p fuel 0 0 (Nat.zero_le fuel) (le_refl 0)]
          exact ⟨Int.emod_nonneg _ (ne_of_gt hp), Int.emod_lt_of_pos _ hp⟩
        · exact ih _ (by omega) (by omega) _ _

lemma power_modeq (x e p : ℤ) (h : x % p ≠ 0 ∨ e.toNat ≠ 0) :
    power x e p ≡ x ^ e.toNat [ZMOD p] := by
  unfold power
  by_cases hx : x % p = 0
  · simp only [hx, if_pos rfl]
    have he : e.toNat ≠ 0 := h.resolve_left (fun h' => h' hx)
    have hx0 : x ≡ 0 [ZMOD p] := by
      show x % p = 0 % p
      simp [hx]
    have : x ^ e.toNat ≡ 0 ^ e.toNat [ZMOD p] := Int.ModEq.pow _ hx0
    rw [zero_pow he] at this
    exact this.symm
  · simp only [if_neg hx]
    refine (powerLoop_modeq p e.toNat e.toNat (le_refl _) (x % p) 1).trans ?_
    rw [one_mul]
    exact Int.ModEq.pow _ (Int.emod_emod_of_dvd _ dvd_rfl)

lemma power_bound (x e p : ℤ) (hp : 0 < p) :
    0 ≤ power x e p ∧ power x e p < p := by
  unfold power
  by_cases hx : x % p = 0
  · simp only [hx, if_pos rfl]
    exact ⟨le_refl 0, hp⟩
  · simp only [if_neg hx]
    have hp1 : 1 < p := by
      by_cases h1 : p = 1
      · exact absurd (by rw [h1, Int.emod_one]) hx
      · omega
    rcases Nat.eq_zero_or_pos e.toNat with h0 | h0
    · rw [h0]
      exact ⟨zero_le_one, hp1⟩
    · exact powerLoop_bound p hp _ _ h0 (le_refl _) _ _

/-- For a non-zero normalized base, `power` computes exactly the
mathematical `x ^ e mod p`. -/
lemma power_eq (x e p : ℤ) (hp : 0 < p) (hx : x % p ≠ 0) :
    power x e p = x ^ e.toNat % p := by
  have hm := power_modeq x e p (Or.inl hx)
  have hb := power_bound x e p hp
  have : power x e p % p = x ^ e.toNat % p := hm
  rw [← this]
  exact (Int.emod_eq_of_lt hb.1 hb.2).symm

/-! ### Bridges from the integer-level code to `ZMod` -/

lemma intCast_emod_zmod (a : ℤ) (q : ℕ) :
    (((a % (q : ℤ)) : ℤ) : ZMod q) = (a : ZMod q) :=
  (ZMod.intCast_eq_intCast_iff _ _ _).mpr (Int.emod_emod_of_dvd _ dvd_rfl)

lemma power_cast (q : ℕ) (x e : ℤ) (h : x % (q : ℤ) ≠ 0 ∨ e.toNat ≠ 0) :
    ((power x e q : ℤ) : ZMod q) = (x : ZMod q) ^ e.toNat := by
  have hm := (ZMod.intCast_eq_intCast_iff _ _ _).mpr (power_modeq x e q h)
  rw [hm]
  push_cast
  ring

/-- In `ZMod q` for prime `q`, raising to the `q - 2` recovers the
field inverse (Fermat). -/
lemma zmod_pow_sub_two (q : ℕ) [Fact q.Prime] (a : ZMod q) (ha : a ≠ 0) :
    a ^ (q - 2) = a⁻¹ := by
  have h2 : 2 ≤ q := (Fact.out : q.Prime).two_le
  have h1 : a ^ (q - 2) * a = 1 := by
    rw [← pow_succ, show q - 2 + 1 = q - 1 by omega]
    exact ZMod.pow_card_sub_one_eq_one ha
  exact eq_inv_of_mul_eq_one_left h1

/-- The code's Fermat-based `modInverse` agrees with the field inverse
in `ZMod q` for every integer input (inverse of zero is zero on both
sides). -/
lemma modInverse_cast (q : ℕ) [Fact q.Prime] (x : ℤ) :
    ((modInverse x (q : ℤ) : ℤ) : ZMod q) = (x : ZMod q)⁻¹ := by
  have h2 : 2 ≤ q := (Fact.out : q.Prime).two_le
  unfold modInverse
  set x' : ℤ := if x < 0 then (q : ℤ) + x else x with hx'
  have hxx : ((x' : ℤ) : ZMod q) = (x : ZMod q) := by
    rw [hx']
    by_cases hneg : x < 0
    · rw [if_pos hneg]
      push_cast
      rw [ZMod.natCast_self]
      ring
    · rw [if_neg hneg]
  have het : ((q : ℤ) - 2).toNat = q - 2 := by omega
  by_cases hz : x' % (q : ℤ) = 0
  · have hcast0 : (x : ZMod q) = 0 := by
      rw [← hxx, ← intCast_emod_zmod, hz, Int.cast_zero]
    rw [hcast0, inv_zero]
    simp [power, hz]
  · rw [power_cast q x' _ (Or.inl hz), het, hxx]
    have hne : (x : ZMod q) ≠ 0 := by
      intro h0
      apply hz
      have hdvd : ((q : ℕ) : ℤ) ∣ x' :=
        (ZMod.intCast_zmod_eq_zero_iff_dvd x' q).mp (by rw [hxx]; exact h0)
      exact Int.emod_eq_zero_of_dvd hdvd
    exact zmod_pow_sub_two q _ hne

lemma modInverse_bound (x q : ℤ) (hq : 0 < q) :
    0 ≤ modInverse x q ∧ modInverse x q < q :=
  power_bound _ _ _ hq

/-- C8: for every integer base, exponent `≥ 0` and modulus `> 0`,
`power(base, exponent, modulus)` returns `base ^ exponent mod modulus`
when `base mod modulus` is non-zero, and `0` whenever `base mod
modulus` is zero, regardless of the exponent (including exponent 0). -/
theorem power_spec (x e p : ℤ) (hp : 0 < p) (_he : 0 ≤ e) :
    (x % p ≠ 0 → power x e p = x ^ e.toNat % p) ∧
    (x % p = 0 → power x e p = 0) := by
  constructor
  · exact fun hx => power_eq x e p hp hx
  · intro hx
    unfold power
    simp [hx]

theorem power_spec_witness :
    ((0 : ℤ) < 5 ∧ (0 : ℤ) ≤ 4 ∧ (3 : ℤ) % 5 ≠ 0 ∧
      power 3 4 5 = 3 ^ (4 : ℤ).toNat % 5) ∧
    ((10 : ℤ) % 5 = 0 ∧ power 10 0 5 = 0) :=
  ⟨⟨by decide, by decide, by decide,
    (power_spec 3 4 5 (by decide) (by decide)).1 (by decide)⟩,
   ⟨by decide, (power_spec 10 0 5 (by decide) (by decide)).2 (by decide)⟩⟩

/-! ### Bridging the Exercise09 folds to sums and products in `ZMod q` -/

/-- Casting an integer in `[0, q)` is injective. -/
lemma int_eq_of_cast_eq (q : ℕ) (a b : ℤ) (h : (a : ZMod q) = (b : ZMod q))
    (ha : 0 ≤ a ∧ a < q) (hb : 0 ≤ b ∧ b < q) : a = b := by
  have hm : a ≡ b [ZMOD (q : ℤ)] := (ZMod.intCast_eq_intCast_iff _ _ _).mp h
  have : a % (q : ℤ) = b % (q : ℤ) := hm
  rwa [Int.emod_eq_of_lt ha.1 ha.2, Int.emod_eq_of_lt hb.1 hb.2] at this

lemma polyfold_cast (q : ℕ) (val : ℤ) (hv : val % (q : ℤ) ≠ 0) (c : List ℤ)
    (n : ℕ) (acc : ℤ) :
    (((List.range n).foldl
        (fun polVal i => (polVal + c.getD i 0 * power val (i : ℤ) (q : ℤ)) % (q : ℤ))
        acc : ℤ) : ZMod q)
      = (acc : ZMod q)
        + ∑ i ∈ Finset.range n, (c.getD i 0 : ZMod q) * (val : ZMod q) ^ i := by
  induction n with
  | zero => simp
  | succ n ih =>
    rw [List.range_succ, List.foldl_append]
    show (((_ + c.getD n 0 * power val (n : ℤ) (q : ℤ)) % (q : ℤ) : ℤ) : ZMod q) = _
    rw [intCast_emod_zmod]
    push_cast
    rw [ih, power_cast q val (n : ℤ) (Or.inl hv), Int.toNat_natCast,
      Finset.sum_range_succ]
    push_cast
    ring

lemma polynomial_cast (q : ℕ) (val : ℤ) (hv : val % (q : ℤ) ≠ 0) (c : List ℤ)
    (f : ℕ) :
    ((Ex09.polynomial val c f (q : ℤ) : ℤ) : ZMod q)
      = ∑ i ∈ Finset.range (f + 1), (c.getD i 0 : ZMod q) * (val : ZMod q) ^ i := by
  unfold Ex09.polynomial
  simpa using polyfold_cast q val hv c (f + 1) 0

lemma polynomial_bound (q val : ℤ) (hq : 0 < q) (c : List ℤ) (f : ℕ) :
    0 ≤ Ex09.polynomial val c f q ∧ Ex09.polynomial val c f q < q := by
  unfold Ex09.polynomial
  rw [List.range_succ, List.foldl_append]
  exact ⟨Int.emod_nonneg _ (ne_of_gt hq), Int.emod_lt_of_pos _ hq⟩

lemma numden_cast (q : ℕ) (T : List (ℤ × ℤ)) (i : ℕ) :
    ((Ex09.numden T (q : ℤ) i).1 : ZMod q)
        = ∏ j ∈ Finset.range T.length,
            (if i ≠ j then ((T.getD j (0, 0)).1 : ZMod q) else 1)
    ∧ ((Ex09.numden T (q : ℤ) i).2 : ZMod q)
        = ∏ j ∈ Finset.range T.length,
            (if i ≠ j then
              ((T.getD j (0, 0)).1 : ZMod q) - ((T.getD i (0, 0)).1 : ZMod q)
            else 1) := by
  unfold Ex09.numden
  generalize T.length = n
  induction n with
  | zero => simp
  | succ n ih =>
    rw [List.range_succ, List.foldl_append]
    simp only [List.foldl_cons, List.foldl_nil]
    by_cases hin : i ≠ n
    · rw [if_pos hin]
      constructor
      · show (((_ : ℤ × ℤ).1 * (T.getD n (0, 0)).1 % (q : ℤ) : ℤ) : ZMod q) = _
        rw [intCast_emod_zmod, Finset.prod_range_succ, if_pos hin]
        push_cast
        rw [ih.1]
      · show (((_ : ℤ × ℤ).2 * ((T.getD n (0, 0)).1 - (T.getD i (0, 0)).1) % (q : ℤ) : ℤ) : ZMod q) = _
        rw [intCast_emod_zmod, Finset.prod_range_succ, if_pos hin]
        push_cast
        rw [ih.2]
    · rw [if_neg hin]
      rw [Finset.prod_range_succ, Finset.prod_range_succ, if_neg hin, if_neg hin,
        mul_one, mul_one]
      exact ih

lemma reconstruct_cast (q : ℕ) [Fact q.Prime] (T : List (ℤ × ℤ)) :
    ((Ex09.reconstruct T (q : ℤ) : ℤ) : ZMod q)
      = ∑ i ∈ Finset.range T.length,
          (((Ex09.numden T (q : ℤ) i).2 : ZMod q))⁻¹ *
            (((Ex09.numden T (q : ℤ) i).1 : ZMod q) * ((T.getD i (0, 0)).2 : ZMod q)) := by
  unfold Ex09.reconstruct
  have key : ∀ (m : ℕ) (acc : ℤ),
      (((List.range m).foldl
          (fun secret i =>
            (secret + modInverse (Ex09.numden T (q : ℤ) i).2 (q : ℤ) *
              ((Ex09.numden T (q : ℤ) i).1 * (T.getD i (0, 0)).2)) % (q : ℤ))
          acc : ℤ) : ZMod q)
        = (acc : ZMod q)
          + ∑ i ∈ Finset.range m,
              (((Ex09.numden T (q : ℤ) i).2 : ZMod q))⁻¹ *
                (((Ex09.numden T (q : ℤ) i).1 : ZMod q) * ((T.getD i (0, 0)).2 : ZMod q)) := by
    intro m
    induction m with
    | zero => simp
    | succ m ih =>
      intro acc
      rw [List.range_succ, List.foldl_append]
      simp only [List.foldl_cons, List.foldl_nil]
      rw [intCast_emod_zmod]
      push_cast
      rw [ih, modInverse_cast q, Finset.sum_range_succ]
      push_cast
      ring
  simpa using key T.length 0

lemma reconstruct_bound (q : ℤ) (hq : 0 < q) (T : List (ℤ × ℤ)) (hT : T.length ≠ 0) :
    0 ≤ Ex09.reconstruct T q ∧ Ex09.reconstruct T q < q := by
  unfold Ex09.reconstruct
  rcases Nat.exists_eq_succ_of_ne_zero hT with ⟨m, hm⟩
  rw [hm, List.range_succ, List.foldl_append]
  exact ⟨Int.emod_nonneg _ (ne_of_gt hq), Int.emod_lt_of_pos _ hq⟩

/-! ### The Lagrange interpolation core -/

/-- Lagrange interpolation at `0`, in the exact arithmetic shape
computed by the code: if `y i = P.eval (x i)` for a polynomial of
degree `< l` and the nodes `x i`, `i < l`, are pairwise distinct, then
the sum of `(prod of (x j - x i))⁻¹ * ((prod of x j) * y i)` over
`i < l` (products over `j < l`, `j ≠ i`) equals `P.eval 0`. -/
lemma lagrange_at_zero (q : ℕ) [Fact q.Prime] (l : ℕ) (x y : ℕ → ZMod q)
    (P : Polynomial (ZMod q))
    (hinj : Set.InjOn x (Finset.range l : Finset ℕ))
    (hdeg : P.degree < l)
    (hy : ∀ i < l, y i = P.eval (x i)) :
    ∑ i ∈ Finset.range l,
        (∏ j ∈ (Finset.range l).erase i, (x j - x i))⁻¹ *
          ((∏ j ∈ (Finset.range l).erase i, x j) * y i)
      = P.eval 0 := by
  have hcard : (Finset.range l).card = l := Finset.card_range l
  have hP : P = Lagrange.interpolate (Finset.range l) x fun i => P.eval (x i) :=
    Lagrange.eq_interpolate hinj (by rw [hcard]; exact hdeg)
  have heval : P.eval 0
      = ∑ i ∈ Finset.range l, P.eval (x i) * Polynomial.eval 0 (Lagrange.basis (Finset.range l) x i) := by
    conv_lhs => rw [hP]
    rw [Lagrange.interpolate_apply, Polynomial.eval_finset_sum]
    refine Finset.sum_congr rfl fun i _ => ?_
    rw [Polynomial.eval_mul, Polynomial.eval_C]
  have hbasis : ∀ i ∈ Finset.range l,
      Polynomial.eval 0 (Lagrange.basis (Finset.range l) x i)
        = (∏ j ∈ (Finset.range l).erase i, (x j - x i))⁻¹ *
            ∏ j ∈ (Finset.range l).erase i, x j := by
    intro i _
    rw [Lagrange.basis, Polynomial.eval_prod]
    have hpt : ∀ j ∈ (Finset.range l).erase i,
        Polynomial.eval 0 (Lagrange.basisDivisor (x i) (x j))
          = (x j - x i)⁻¹ * x j := by
      intro j _
      rw [Lagrange.basisDivisor, Polynomial.eval_mul, Polynomial.eval_C,
        Polynomial.eval_sub, Polynomial.eval_X, Polynomial.eval_C]
      rw [zero_sub, show x i - x j = -(x j - x i) by ring, inv_neg]
      ring
    rw [Finset.prod_congr rfl hpt, Finset.prod_mul_distrib,
      ← Finset.prod_inv_distrib]
  rw [heval]
  refine Finset.sum_congr rfl fun i hi => ?_
  rw [hbasis i hi, hy i (Finset.mem_range.mp hi)]
  ring

/-- Rewriting the guarded products of the inner loop as products over
`(range l).erase i`. -/
lemma prod_ite_ne (q l i : ℕ) (hi : i < l) (g : ℕ → ZMod q) :
    ∏ j ∈ Finset.range l, (if i ≠ j then g j else 1)
      = ∏ j ∈ (Finset.range l).erase i, g j := by
  rw [← Finset.mul_prod_erase (Finset.range l)
    (fun j => if i ≠ j then g j else 1) (Finset.mem_range.mpr hi)]
  rw [if_neg (by simp), one_mul]
  refine Finset.prod_congr rfl fun j hj => ?_
  rw [if_pos (Ne.symm (Finset.mem_erase.mp hj).1)]

/-- The Lagrange core specialized to the literal shapes appearing in
the code-level sums over a share list `T`. -/
lemma lagrange_at_zero_list (q : ℕ) [Fact q.Prime] (T : List (ℤ × ℤ))
    (P : Polynomial (ZMod q))
    (hinj : Set.InjOn (fun j => (((T.getD j (0, 0)).1 : ℤ) : ZMod q))
      (Finset.range T.length : Finset ℕ))
    (hdeg : P.degree < T.length)
    (hy : ∀ i < T.length,
      (((T.getD i (0, 0)).2 : ℤ) : ZMod q) = P.eval ((T.getD i (0, 0)).1 : ZMod q)) :
    ∑ i ∈ Finset.range T.length,
        (∏ j ∈ (Finset.range T.length).erase i,
            (((T.getD j (0, 0)).1 : ZMod q) - ((T.getD i (0, 0)).1 : ZMod q)))⁻¹ *
          ((∏ j ∈ (Finset.range T.length).erase i, ((T.getD j (0, 0)).1 : ZMod q)) *
            ((T.getD i (0, 0)).2 : ZMod q))
      = P.eval 0 :=
  lagrange_at_zero q T.length (fun j => ((T.getD j (0, 0)).1 : ZMod q))
    (fun i => ((T.getD i (0, 0)).2 : ZMod q)) P hinj hdeg hy

/-- C1: Shamir round-trip for Exercise09.  For every secret
`s ∈ [0, q)`, threshold `f ≥ 1`, party count `n ≥ f + 1`, prime
`q > n`, random coefficients `rs` (one per degree `1..f`), and any
choice `T` of `f + 1` of the `n` shares returned by
`share(s, f, n, q)` (in any order; distinct shares of this list always
have distinct x-coordinates), `reconstruct(T, q)` returns `s`. -/
theorem shamir_roundtrip (s : ℤ) (f n q : ℕ) (hq : q.Prime) (hs0 : 0 ≤ s)
    (hsq : s < q) (hf : 1 ≤ f) (hn : f + 1 ≤ n) (hnq : n < q)
    (rs : List ℤ) (hrs : rs.length = f) (T : List (ℤ × ℤ))
    (hT : ∀ t ∈ T, t ∈ Ex09.share s f n (q : ℤ) rs)
    (hTlen : T.length = f + 1) (hTnd : (T.map Prod.fst).Nodup) :
    Ex09.reconstruct T (q : ℤ) = s := by
  haveI : Fact q.Prime := ⟨hq⟩
  have hq0 : (0 : ℤ) < q := by exact_mod_cast hq.pos
  set c : List ℤ := Ex09.generateCoefficients s rs with hc
  have hmem : ∀ i, i < T.length → ∃ a : ℕ, 1 ≤ a ∧ a ≤ n ∧
      (T.getD i (0, 0)).1 = (a : ℤ) ∧
      (T.getD i (0, 0)).2 = Ex09.polynomial (a : ℤ) c f (q : ℤ) := by
    intro i hi
    have h1 : T.getD i (0, 0) ∈ T := by
      rw [List.getD_eq_getElem T (0, 0) hi]
      exact List.getElem_mem hi
    have h2 := hT _ h1
    unfold Ex09.share at h2
    rcases List.mem_map.mp h2 with ⟨a, ha, heq⟩
    rcases List.mem_range'_1.mp ha with ⟨ha1, ha2⟩
    exact ⟨a, ha1, by omega, by rw [← heq], by rw [← heq]⟩
  set P : Polynomial (ZMod q) :=
    ∑ k ∈ Finset.range (f + 1),
      Polynomial.C ((c.getD k 0 : ℤ) : ZMod q) * Polynomial.X ^ k with hP
  have hPeval : ∀ z : ZMod q,
      P.eval z = ∑ k ∈ Finset.range (f + 1), ((c.getD k 0 : ℤ) : ZMod q) * z ^ k := by
    intro z
    rw [hP, Polynomial.eval_finset_sum]
    refine Finset.sum_congr rfl fun k _ => ?_
    rw [Polynomial.eval_mul, Polynomial.eval_C, Polynomial.eval_pow,
      Polynomial.eval_X]
  have hPdeg : P.degree < (T.length : WithBot ℕ) := by
    rw [hP, hTlen]
    refine lt_of_le_of_lt (Polynomial.degree_sum_le _ _) ?_
    rw [Finset.sup_lt_iff (by exact WithBot.bot_lt_coe _)]
    intro k hk
    refine lt_of_le_of_lt (Polynomial.degree_C_mul_X_pow_le k _) ?_
    exact_mod_cast Finset.mem_range.mp hk
  have hP0 : P.eval 0 = (s : ZMod q) := by
    rw [hPeval 0]
    have hterm : ∀ k ∈ Finset.range (f + 1),
        ((c.getD k 0 : ℤ) : ZMod q) * (0 : ZMod q) ^ k
          = if k = 0 then ((c.getD k 0 : ℤ) : ZMod q) else 0 := by
      intro k _
      rcases Nat.eq_zero_or_pos k with rfl | hk
      · simp
      · rw [zero_pow (Nat.pos_iff_ne_zero.mp hk), if_neg (Nat.pos_iff_ne_zero.mp hk)]
        ring
    rw [Finset.sum_congr rfl hterm, Finset.sum_ite_eq' (Finset.range (f + 1)) 0]
    rw [if_pos (Finset.mem_range.mpr (Nat.succ_pos f))]
    rw [hc]
    rfl
  have hy : ∀ i, i < T.length →
      (((T.getD i (0, 0)).2 : ℤ) : ZMod q) = P.eval ((T.getD i (0, 0)).1 : ZMod q) := by
    intro i hi
    rcases hmem i hi with ⟨a, ha1, ha2, hxa, hya⟩
    have hamod : (a : ℤ) % (q : ℤ) ≠ 0 := by
      rw [Int.emod_eq_of_lt (by exact_mod_cast Nat.zero_le a)
        (by exact_mod_cast lt_of_le_of_lt ha2 hnq)]
      exact_mod_cast Nat.one_le_iff_ne_zero.mp ha1
    rw [hya, polynomial_cast q _ hamod c f, hPeval, hxa]
  have hinj : Set.InjOn (fun j => (((T.getD j (0, 0)).1 : ℤ) : ZMod q))
      (Finset.range T.length : Finset ℕ) := by
    intro i hi j hj hij
    simp only [Finset.coe_range, Set.mem_Iio] at hi hj
    rcases hmem i hi with ⟨a, ha1, ha2, hxa, -⟩
    rcases hmem j hj with ⟨b, hb1, hb2, hxb, -⟩
    have hij' : (((T.getD i (0, 0)).1 : ℤ) : ZMod q)
        = (((T.getD j (0, 0)).1 : ℤ) : ZMod q) := hij
    have hab : (a : ℤ) = (b : ℤ) := by
      refine int_eq_of_cast_eq q _ _ ?_
        ⟨by exact_mod_cast Nat.zero_le a, by exact_mod_cast lt_of_le_of_lt ha2 hnq⟩
        ⟨by exact_mod_cast Nat.zero_le b, by exact_mod_cast lt_of_le_of_lt hb2 hnq⟩
      rw [← hxa, ← hxb]
      exact hij'
    have hfst : (T.getD i (0, 0)).1 = (T.getD j (0, 0)).1 := by
      rw [hxa, hxb, hab]
    have hlen : i < (T.map Prod.fst).length := by rwa [List.length_map]
    have hlen' : j < (T.map Prod.fst).length := by rwa [List.length_map]
    have hget : (T.map Prod.fst).get ⟨i, hlen⟩ = (T.map Prod.fst).get ⟨j, hlen'⟩ := by
      simp only [List.get_eq_getElem, List.getElem_map]
      rw [← List.getD_eq_getElem T (0, 0) hi, ← List.getD_eq_getElem T (0, 0) hj]
      exact hfst
    exact congrArg Fin.val (hTnd.get_inj_iff.mp hget)
  have hsum := lagrange_at_zero_list q T P hinj hPdeg hy
  have hcast : ((Ex09.reconstruct T (q : ℤ) : ℤ) : ZMod q) = (s : ZMod q) := by
    rw [reconstruct_cast q T, ← hP0, ← hsum]
    refine Finset.sum_congr rfl fun i hi => ?_
    have hil : i < T.length := Finset.mem_range.mp hi
    rw [(numden_cast q T i).1, (numden_cast q T i).2]
    rw [prod_ite_ne q T.length i hil, prod_ite_ne q T.length i hil]
  have hb := reconstruct_bound (q : ℤ) hq0 T (by omega)
  exact int_eq_of_cast_eq q _ _ hcast ⟨hb.1, hb.2⟩ ⟨hs0, hsq⟩

theorem shamir_roundtrip_witness :
    Nat.Prime 7 ∧
    (∀ t ∈ [((2 : ℤ), (0 : ℤ)), (1, 5)], t ∈ Ex09.share 3 1 2 ((7 : ℕ) : ℤ) [2]) ∧
    Ex09.reconstruct [((2 : ℤ), (0 : ℤ)), (1, 5)] ((7 : ℕ) : ℤ) = 3 :=
  ⟨by decide, by decide,
    shamir_roundtrip 3 1 2 7 (by decide) (by decide) (by decide) (by decide)
      (by decide) (by decide) [2] rfl [(2, 0), (1, 5)] (by decide) rfl (by decide)⟩

/-! ### Claims C5, C7, C3 -/

/-- C5 counterexample: with a duplicated x-coordinate, `reconstruct`
does not raise anything -- `modInverse(0, 7)` is `0` and `reconstruct`
silently returns `0`, not the secret `3` whose shares (for
coefficients `[3, 2]`) include `(1, 5)`. -/
theorem reconstruct_degenerate_counterexample :
    modInverse 0 7 = 0 ∧
    Ex09.share 3 1 2 7 [2] = [(1, 5), (2, 0)] ∧
    Ex09.reconstruct [(1, 5), (1, 5)] 7 = 0 ∧ (0 : ℤ) ≠ 3 := by decide

/-- C5 (amended): `modInverse(0, q)` returns `0` (it does not fail),
so `reconstruct` on a share list with a duplicated x-coordinate
silently returns a value; for a pair of identical shares that value is
`0` whatever the share was. -/
theorem reconstruct_degenerate (x y q : ℤ) (hq : 0 < q) :
    modInverse 0 q = 0 ∧ Ex09.reconstruct [(x, y), (x, y)] q = 0 := by
  have hminv : modInverse 0 q = 0 := by
    unfold modInverse power
    norm_num
  refine ⟨hminv, ?_⟩
  unfold Ex09.reconstruct Ex09.numden
  simp [List.range_succ, hminv]

theorem reconstruct_degenerate_witness :
    (0 : ℤ) < 7 ∧ modInverse 0 7 = 0 ∧
      Ex09.reconstruct [((1 : ℤ), (5 : ℤ)), (1, 5)] 7 = 0 :=
  ⟨by decide, (reconstruct_degenerate 1 5 7 (by decide)).1,
    (reconstruct_degenerate 1 5 7 (by decide)).2⟩

lemma sol10_polynomial_bound (q : ℤ) (hq : 0 < q) (val : ℤ) (c : List ℤ) (f : ℕ) :
    0 ≤ Sol10.polynomial val c f q ∧ Sol10.polynomial val c f q < q := by
  unfold Sol10.polynomial
  generalize c.enum = L
  suffices h : ∀ (L : List (ℕ × ℤ)) (acc : ℤ), 0 ≤ acc → acc < q →
      0 ≤ L.foldl (fun total ic => (total + ic.2 * power val ((f : ℤ) - ic.1) q) % q) acc ∧
      L.foldl (fun total ic => (total + ic.2 * power val ((f : ℤ) - ic.1) q) % q) acc < q by
    exact h L 0 (le_refl 0) hq
  intro L
  induction L with
  | nil => exact fun acc h1 h2 => ⟨h1, h2⟩
  | cons ic L ih =>
    intro acc _ _
    exact ih _ (Int.emod_nonneg _ (ne_of_gt hq)) (Int.emod_lt_of_pos _ hq)

/-- C7 counterexample: `share` in sol10.py evaluates at randomly drawn
x-coordinates; with the (possible) samples `[0, 0]` it returns two
shares both indexed `0` -- not the pairwise-distinct nonzero indices
`1..n`.  Also, `KeyGen` of Ordiales_Inaky_10-1.py shares the secret
modulo `p`, so share values need not lie in `[0, q)`: with
`q = 5, p = 11` it can return the share value `9 ≥ q`. -/
theorem share_indices_counterexample :
    (Sol10.share 2 1 2 5 [0, 0] [1]).map Prod.fst = [0, 0] ∧
    ¬ (([0, 0] : List ℤ).Nodup ∧ (0 : ℤ) ≠ 0) ∧
    (Ord10.KeyGen 3 5 11 1 2 2 [7]).2.2.map Prod.snd = [9, 5] ∧
    ¬ ((9 : ℤ) < 5) := by decide

/-- C7 (amended): `share` in Exercise09 and in Exercise10-1 return
exactly `n` shares indexed by `1..n` with values reduced into `[0, m)`
for the modulus `m` they are called with -- which for `KeyGen` of
Exercise10-1 is `p`, not `q`; `share` in sol10.py returns exactly `n`
shares whose x-coordinates are the `n` sampled random values (not
necessarily distinct, nonzero, or `1..n`), with values in `[0, q)`. -/
theorem share_shape (x g : ℤ) (f n : ℕ) (q p : ℤ) (hq : 0 < q) (hp : 0 < p)
    (rs xs rs2 : List ℤ) :
    ((Ex09.share x f n q rs).map Prod.fst = (List.range' 1 n).map (fun i : ℕ => (i : ℤ)) ∧
      ∀ t ∈ Ex09.share x f n q rs, 0 ≤ t.2 ∧ t.2 < q) ∧
    ((Ord10.KeyGen g q p f n x rs).2.2.map Prod.fst
        = (List.range' 1 n).map (fun i : ℕ => (i : ℤ)) ∧
      ∀ t ∈ (Ord10.KeyGen g q p f n x rs).2.2, 0 ≤ t.2 ∧ t.2 < p) ∧
    ((Sol10.share x f n q xs rs2).map Prod.fst
        = (List.range n).map (fun i => xs.getD i 0) ∧
      ∀ t ∈ Sol10.share x f n q xs rs2, 0 ≤ t.2 ∧ t.2 < q) := by
  have hEx : ∀ (m : ℤ), 0 < m → ∀ rs' : List ℤ,
      (Ex09.share x f n m rs').map Prod.fst = (List.range' 1 n).map (fun i : ℕ => (i : ℤ)) ∧
      ∀ t ∈ Ex09.share x f n m rs', 0 ≤ t.2 ∧ t.2 < m := by
    intro m hm rs'
    constructor
    · unfold Ex09.share
      rw [List.map_map]
      rfl
    · intro t ht
      unfold Ex09.share at ht
      rcases List.mem_map.mp ht with ⟨a, _, heq⟩
      rw [← heq]
      exact polynomial_bound m _ hm _ f
  refine ⟨hEx q hq rs, hEx p hp rs, ?_, ?_⟩
  · unfold Sol10.share
    rw [List.map_map]
    rfl
  · intro t ht
    unfold Sol10.share at ht
    rcases List.mem_map.mp ht with ⟨a, _, heq⟩
    rw [← heq]
    exact sol10_polynomial_bound q hq _ _ f

theorem share_shape_witness :
    (0 : ℤ) < 5 ∧ (0 : ℤ) < 11 ∧
    (Ex09.share 3 1 2 5 [2]).map Prod.fst = [1, 2] ∧
    (Sol10.share 3 1 2 5 [4, 2] [1]).map Prod.fst = [4, 2] :=
  ⟨by decide, by decide,
    by
      have h := ((share_shape 3 7 1 2 5 11 (by decide) (by decide) [2] [4, 2] [1]).1).1
      simpa using h,
    by
      have h := ((share_shape 3 7 1 2 5 11 (by decide) (by decide) [2] [4, 2] [1]).2.2).1
      simpa using h⟩

/-- C3: the recombination loop of `Recover` in Ordiales_Inaky_10-1.py
reduces the Lagrange numerator, denominator and coefficient mod `p`,
not mod `q`.  On the honest instance `p = 11, q = 5, g = 3`, secret
`s = 2`, shares `(1, 3)` and `(3, 0)`, `R = 9`, the partial
decryptions are `(1, 3)` and `(3, 1)`; the correct recombined mask is
`R ^ s mod p = power 9 2 11 = 4` (which sol10.py's mod-`q` `recover`
matches, returning the message `7` from ciphertext `(9, 6)`), but
`RecoverValue` returns `9`, because its Lagrange coefficient for the
first share is `3 * modInverse(2, 11) mod 11 = 7` instead of
`3 * modInverse(2, 5) mod 5 = 4`. -/
theorem recover_lagrange_modulus :
    Ord10.RecoverValue [(1, 3), (3, 1)] 11 = 9 ∧
    Sol10.recover 11 5 3 [(1, 3), (3, 1)] (9, 6) = 7 ∧
    power 9 2 11 = 4 ∧ (9 : ℤ) ≠ 4 ∧
    3 * modInverse 2 11 % 11 = 7 ∧ 3 * modInverse 2 5 % 5 = 4 := by decide

/-! ### Claim C2: threshold-ElGamal round trip (sol10.py) -/

/-- C2 counterexample: `KeyGen` can sample equal x-coordinates
(`random.randint(0, q-1)` drew `1` twice).  With `p = 11, q = 5,
g = 3`, secret `s = 2`, coefficients `[1]`, message `m = 7`,
ephemeral `r = 2`, both shares are `(1, 3)`; the `f+1 = 2` partial
decryptions recombine to `6 ≠ 7`: the round trip fails. -/
theorem threshold_elgamal_counterexample :
    Sol10.KeyGen 11 5 3 2 1 2 [1, 1] [1] = (9, [(1, 3), (1, 3)]) ∧
    Sol10.encrypt 11 5 3 9 7 2 = (9, 6) ∧
    (([((1 : ℤ), (3 : ℤ)), (1, 3)]).map fun t => Sol10.decrypt 11 5 3 9 t (9, 6))
      = [(1, 3), (1, 3)] ∧
    Sol10.recover 11 5 3 [(1, 3), (1, 3)] (9, 6) = 6 ∧ (6 : ℤ) ≠ 7 := by decide

lemma sol10_polyfold_cast (q : ℕ) (val : ℤ) (hv : val % (q : ℤ) ≠ 0) (f : ℕ)
    (L : List (ℕ × ℤ)) :
    ∀ acc : ℤ,
    ((L.foldl
        (fun total ic => (total + ic.2 * power val ((f : ℤ) - ic.1) (q : ℤ)) % (q : ℤ))
        acc : ℤ) : ZMod q)
      = (acc : ZMod q)
        + (L.map fun ic =>
            (ic.2 : ZMod q) * (val : ZMod q) ^ ((f : ℤ) - ic.1).toNat).sum := by
  induction L with
  | nil => simp
  | cons ic L ih =>
    intro acc
    rw [List.foldl_cons, ih, List.map_cons, List.sum_cons, intCast_emod_zmod]
    push_cast
    rw [power_cast q val _ (Or.inl hv)]
    ring

lemma enumFrom_map_sum (q : ℕ) (g : ℕ × ℤ → ZMod q) (c : List ℤ) :
    ∀ s : ℕ, ((List.enumFrom s c).map g).sum
      = ∑ i ∈ Finset.range c.length, g (s + i, c.getD i 0) := by
  induction c with
  | nil => simp
  | cons a c ih =>
    intro s
    rw [List.enumFrom, List.map_cons, List.sum_cons, List.length_cons,
      Finset.sum_range_succ', ih (s + 1)]
    rw [add_comm]
    congr 1
    refine Finset.sum_congr rfl fun i _ => ?_
    rw [List.getD_cons_succ, show s + (i + 1) = s + 1 + i by omega]

lemma sol10_polynomial_cast (q : ℕ) (val : ℤ) (hv : val % (q : ℤ) ≠ 0)
    (c : List ℤ) (f : ℕ) (hc : c.length = f + 1) :
    ((Sol10.polynomial val c f (q : ℤ) : ℤ) : ZMod q)
      = ∑ j ∈ Finset.range (f + 1),
          ((c.getD (f - j) 0 : ℤ) : ZMod q) * (val : ZMod q) ^ j := by
  unfold Sol10.polynomial
  rw [show c.enum = List.enumFrom 0 c from rfl]
  rw [sol10_polyfold_cast q val hv f _ 0, enumFrom_map_sum, hc]
  rw [Int.cast_zero, zero_add]
  rw [← Finset.sum_range_reflect (fun j => ((c.getD (f - j) 0 : ℤ) : ZMod q) * (val : ZMod q) ^ j) (f + 1)]
  refine Finset.sum_congr rfl fun i hi => ?_
  have hif : i ≤ f := by
    have := Finset.mem_range.mp hi
    omega
  have h1 : f + 1 - 1 - i = f - i := by omega
  have h2 : f - (f - i) = i := by omega
  have h3 : ((f : ℤ) - ((0 + i : ℕ) : ℤ)).toNat = f - i := by omega
  rw [h1, h2]
  show ((c.getD i 0 : ℤ) : ZMod q) * (val : ZMod q) ^ ((f : ℤ) - ((0 + i : ℕ) : ℤ)).toNat
    = ((c.getD i 0 : ℤ) : ZMod q) * (val : ZMod q) ^ (f - i)
  rw [h3]

lemma lagExp_cast (q : ℕ) [Fact q.Prime] (D : List (ℤ × ℤ)) (i : ℕ) :
    ((Sol10.lagExp D (q : ℤ) i : ℤ) : ZMod q)
      = ∏ j ∈ Finset.range D.length,
          (if i ≠ j then
            ((D.getD j (0, 0)).1 : ZMod q) *
              (((D.getD j (0, 0)).1 : ZMod q) - ((D.getD i (0, 0)).1 : ZMod q))⁻¹
          else 1) := by
  unfold Sol10.lagExp
  generalize D.length = n
  have key : ∀ (m : ℕ) (acc : ℤ),
      (((List.range m).foldl
          (fun exp j =>
            if i ≠ j then
              exp * ((D.getD j (0, 0)).1 % (q : ℤ)) *
                modInverse ((D.getD j (0, 0)).1 - (D.getD i (0, 0)).1) (q : ℤ) % (q : ℤ)
            else exp)
          acc : ℤ) : ZMod q)
        = (acc : ZMod q) * ∏ j ∈ Finset.range m,
            (if i ≠ j then
              ((D.getD j (0, 0)).1 : ZMod q) *
                (((D.getD j (0, 0)).1 : ZMod q) - ((D.getD i (0, 0)).1 : ZMod q))⁻¹
            else 1) := by
    intro m
    induction m with
    | zero => simp
    | succ m ih =>
      intro acc
      rw [List.range_succ, List.foldl_append]
      simp only [List.foldl_cons, List.foldl_nil]
      by_cases him : i ≠ m
      · rw [if_pos him, intCast_emod_zmod]
        push_cast
        rw [ih, modInverse_cast q, Finset.prod_range_succ, if_pos him]
        push_cast
        ring
      · rw [if_neg him, ih, Finset.prod_range_succ, if_neg him, mul_one]
  simpa using key n 1

lemma lagExp_nonneg (D : List (ℤ × ℤ)) (q : ℤ) (hq : 0 < q) (i : ℕ) :
    0 ≤ Sol10.lagExp D q i := by
  unfold Sol10.lagExp
  generalize List.range D.length = L
  suffices h : ∀ (L : List ℕ) (acc : ℤ), 0 ≤ acc →
      0 ≤ L.foldl
        (fun exp j =>
          if i ≠ j then
            exp * ((D.getD j (0, 0)).1 % q) *
              modInverse ((D.getD j (0, 0)).1 - (D.getD i (0, 0)).1) q % q
          else exp)
        acc by
    exact h L 1 zero_le_one
  intro L
  induction L with
  | nil => exact fun acc h => h
  | cons j L ih =>
    intro acc hacc
    rw [List.foldl_cons]
    by_cases him : i ≠ j
    · rw [if_pos him]
      exact ih _ (Int.emod_nonneg _ (ne_of_gt hq))
    · rw [if_neg him]
      exact ih _ hacc

lemma getD_pair_map (T : List (ℤ × ℤ)) (g : ℤ × ℤ → ℤ × ℤ) (i : ℕ)
    (hi : i < T.length) :
    (T.map g).getD i (0, 0) = g (T.getD i (0, 0)) := by
  rw [List.getD_eq_getElem _ _ (by rwa [List.length_map]), List.getElem_map,
    List.getD_eq_getElem _ _ hi]

lemma pow_congr_of_pow_eq_one {M : Type*} [Monoid M] (a : M) (q : ℕ)
    (hq : q ≠ 0) (h1 : a ^ q = 1) (e1 e2 : ℕ) (he : e1 ≡ e2 [MOD q]) :
    a ^ e1 = a ^ e2 := by
  have key : ∀ e : ℕ, a ^ e = a ^ (e % q) := by
    intro e
    conv_lhs => rw [← Nat.div_add_mod e q]
    rw [pow_add, pow_mul, h1, one_pow, one_mul]
  rw [key e1, key e2, he]

lemma recover_prodfold_cast (p : ℕ) (D : List (ℤ × ℤ)) (q : ℤ)
    (hd : ∀ i, i < D.length → (D.getD i (0, 0)).2 % (p : ℤ) ≠ 0)
    (m : ℕ) (hm : m ≤ D.length) (acc : ℤ) :
    (((List.range m).foldl
        (fun prod i => prod * power (D.getD i (0, 0)).2 (Sol10.lagExp D q i) (p : ℤ) % (p : ℤ))
        acc : ℤ) : ZMod p)
      = (acc : ZMod p) * ∏ i ∈ Finset.range m,
          ((D.getD i (0, 0)).2 : ZMod p) ^ (Sol10.lagExp D q i).toNat := by
  induction m with
  | zero => simp
  | succ m ih =>
    rw [List.range_succ, List.foldl_append]
    simp only [List.foldl_cons, List.foldl_nil]
    rw [intCast_emod_zmod]
    push_cast
    rw [ih (by omega), power_cast p _ _ (Or.inl (hd m (by omega))),
      Finset.prod_range_succ]
    ring

/-- C2 (amended): threshold-ElGamal round trip for sol10.py, provided
the sampled share x-coordinates are nonzero and the chosen `f + 1`
partial decryptions have pairwise distinct x-coordinates (the original
claim, quantifying over every KeyGen output and every subset, fails
when `random.randint(0, q-1)` repeats or zeroes an x-coordinate; see
the counterexample).  For every prime `p`, prime `q`, generator `g`
with `g mod p ≠ 0` and `g ^ q ≡ 1 (mod p)`, secret `s ∈ [0, q)`,
message `m ∈ [0, p)`, any ephemeral exponent `r`, and any choice `T`
of `f + 1` of the `n` shares of `KeyGen`, applying `recover` to the
partial decryptions (`decrypt` with each share of `T`) of
`encrypt(p, q, g, pk, m)` returns `m`. -/
theorem threshold_elgamal_roundtrip (p q : ℕ) (hp : p.Prime) (hq : q.Prime)
    (g : ℤ) (hg : g % (p : ℤ) ≠ 0) (hgq : (g : ZMod p) ^ q = 1)
    (s : ℤ) (hs0 : 0 ≤ s) (hsq : s < (q : ℤ))
    (f n : ℕ) (hfn : f + 1 ≤ n)
    (rs : List ℤ) (hrs : rs.length = f)
    (xs : List ℤ) (hxslen : n ≤ xs.length)
    (hxrange : ∀ z ∈ xs, 0 ≤ z ∧ z < (q : ℤ)) (hxnz : ∀ z ∈ xs, z ≠ 0)
    (m : ℤ) (hm0 : 0 ≤ m) (hmp : m < (p : ℤ)) (r : ℤ)
    (T : List (ℤ × ℤ))
    (hT : ∀ t ∈ T, t ∈ (Sol10.KeyGen (p : ℤ) (q : ℤ) g n f s xs rs).2)
    (hTlen : T.length = f + 1) (hTnd : (T.map Prod.fst).Nodup) :
    Sol10.recover (p : ℤ) (q : ℤ) g
      (T.map fun t => Sol10.decrypt (p : ℤ) (q : ℤ) g
        (Sol10.KeyGen (p : ℤ) (q : ℤ) g n f s xs rs).1 t
        (Sol10.encrypt (p : ℤ) (q : ℤ) g
          (Sol10.KeyGen (p : ℤ) (q : ℤ) g n f s xs rs).1 m r))
      (Sol10.encrypt (p : ℤ) (q : ℤ) g
        (Sol10.KeyGen (p : ℤ) (q : ℤ) g n f s xs rs).1 m r) = m := by
  haveI : Fact p.Prime := ⟨hp⟩
  haveI : Fact q.Prime := ⟨hq⟩
  have hp0 : (0 : ℤ) < p := by exact_mod_cast hp.pos
  have hq0 : (0 : ℤ) < q := by exact_mod_cast hq.pos
  set pk : ℤ := (Sol10.KeyGen (p : ℤ) (q : ℤ) g n f s xs rs).1 with hpk
  set cEnc : ℤ × ℤ := Sol10.encrypt (p : ℤ) (q : ℤ) g pk m r with hcEnc
  set D : List (ℤ × ℤ) :=
    T.map fun t => Sol10.decrypt (p : ℤ) (q : ℤ) g pk t cEnc with hD
  set R : ℤ := power g r (p : ℤ) with hR
  -- basic facts about g, pk, R
  have hgne : (g : ZMod p) ≠ 0 := by
    intro h0
    exact hg (Int.emod_eq_zero_of_dvd ((ZMod.intCast_zmod_eq_zero_iff_dvd g p).mp h0))
  have hpkcast : ((pk : ℤ) : ZMod p) = (g : ZMod p) ^ s.toNat := by
    rw [hpk]
    exact power_cast p g s (Or.inl hg)
  have hpkmod : pk % (p : ℤ) ≠ 0 := by
    show power g s (p : ℤ) % (p : ℤ) ≠ 0
    have hb := power_bound g s (p : ℤ) hp0
    rw [Int.emod_eq_of_lt hb.1 hb.2]
    intro h0
    have hz : ((pk : ℤ) : ZMod p) = 0 := by
      show ((power g s (p : ℤ) : ℤ) : ZMod p) = 0
      rw [h0]
      norm_num
    rw [hpkcast] at hz
    exact pow_ne_zero _ hgne hz
  have hRcast : ((R : ℤ) : ZMod p) = (g : ZMod p) ^ r.toNat := by
    rw [hR]
    exact power_cast p g r (Or.inl hg)
  have hRne : ((R : ℤ) : ZMod p) ≠ 0 := by
    rw [hRcast]
    exact pow_ne_zero _ hgne
  have hRmod : R % (p : ℤ) ≠ 0 := by
    have hb := power_bound g r (p : ℤ) hp0
    rw [hR, Int.emod_eq_of_lt hb.1 hb.2]
    intro h0
    rw [hR] at hRne
    rw [h0] at hRne
    exact hRne (by norm_num)
  have hRq : ((R : ℤ) : ZMod p) ^ q = 1 := by
    rw [hRcast, ← pow_mul, mul_comm, pow_mul, hgq, one_pow]
  -- the ciphertext components
  have hc1 : cEnc.1 = R := rfl
  have hc2 : cEnc.2 = power pk r (p : ℤ) * m % (p : ℤ) := rfl
  -- share membership facts
  set cz : List ℤ := Sol10.generateCoefficients s rs with hcz
  have hczlen : cz.length = f + 1 := by
    rw [hcz]
    unfold Sol10.generateCoefficients
    rw [List.length_append, hrs]
    rfl
  have hmem : ∀ i, i < T.length → ∃ k : ℕ, k < n ∧
      T.getD i (0, 0) = (xs.getD k 0,
        Sol10.polynomial (xs.getD k 0) cz f (q : ℤ)) := by
    intro i hi
    have h1 : T.getD i (0, 0) ∈ T := by
      rw [List.getD_eq_getElem T (0, 0) hi]
      exact List.getElem_mem hi
    have h2 := hT _ h1
    show ∃ k : ℕ, k < n ∧ _
    unfold Sol10.KeyGen Sol10.share at h2
    rcases List.mem_map.mp h2 with ⟨k, hk, heq⟩
    exact ⟨k, List.mem_range.mp hk, heq.symm⟩
  have hxk : ∀ k : ℕ, k < n → xs.getD k 0 ∈ xs := by
    intro k hk
    rw [List.getD_eq_getElem xs 0 (by omega)]
    exact List.getElem_mem _
  have hxmod : ∀ k : ℕ, k < n → xs.getD k 0 % (q : ℤ) ≠ 0 := by
    intro k hk
    have h1 := hxrange _ (hxk k hk)
    rw [Int.emod_eq_of_lt h1.1 h1.2]
    exact hxnz _ (hxk k hk)
  -- the sharing polynomial over ZMod q
  set Q : Polynomial (ZMod q) :=
    ∑ j ∈ Finset.range (f + 1),
      Polynomial.C ((cz.getD (f - j) 0 : ℤ) : ZMod q) * Polynomial.X ^ j with hQ
  have hQeval : ∀ z : ZMod q,
      Q.eval z = ∑ j ∈ Finset.range (f + 1),
        ((cz.getD (f - j) 0 : ℤ) : ZMod q) * z ^ j := by
    intro z
    rw [hQ, Polynomial.eval_finset_sum]
    refine Finset.sum_congr rfl fun k _ => ?_
    rw [Polynomial.eval_mul, Polynomial.eval_C, Polynomial.eval_pow,
      Polynomial.eval_X]
  have hQdeg : Q.degree < (T.length : WithBot ℕ) := by
    rw [hQ, hTlen]
    refine lt_of_le_of_lt (Polynomial.degree_sum_le _ _) ?_
    rw [Finset.sup_lt_iff (by exact WithBot.bot_lt_coe _)]
    intro k hk
    refine lt_of_le_of_lt (Polynomial.degree_C_mul_X_pow_le k _) ?_
    exact_mod_cast Finset.mem_range.mp hk
  have hQ0 : Q.eval 0 = (s : ZMod q) := by
    rw [hQeval 0]
    have hterm : ∀ k ∈ Finset.range (f + 1),
        ((cz.getD (f - k) 0 : ℤ) : ZMod q) * (0 : ZMod q) ^ k
          = if k = 0 then ((cz.getD (f - k) 0 : ℤ) : ZMod q) else 0 := by
      intro k _
      rcases Nat.eq_zero_or_pos k with rfl | hk
      · simp
      · rw [zero_pow (Nat.pos_iff_ne_zero.mp hk), if_neg (Nat.pos_iff_ne_zero.mp hk)]
        ring
    rw [Finset.sum_congr rfl hterm, Finset.sum_ite_eq' (Finset.range (f + 1)) 0]
    rw [if_pos (Finset.mem_range.mpr (Nat.succ_pos f))]
    have hgetf : cz.getD (f - 0) 0 = s := by
      rw [hcz]
      unfold Sol10.generateCoefficients
      rw [Nat.sub_zero, List.getD_append_right _ _ _ _ (by omega), hrs]
      simp
    rw [hgetf]
  have hy : ∀ i, i < T.length →
      (((T.getD i (0, 0)).2 : ℤ) : ZMod q)
        = Q.eval ((T.getD i (0, 0)).1 : ZMod q) := by
    intro i hi
    rcases hmem i hi with ⟨k, hk, heq⟩
    rw [heq]
    show ((Sol10.polynomial (xs.getD k 0) cz f (q : ℤ) : ℤ) : ZMod q) = _
    rw [sol10_polynomial_cast q _ (hxmod k hk) cz f hczlen, hQeval]
  have hy0 : ∀ i, i < T.length → 0 ≤ (T.getD i (0, 0)).2 := by
    intro i hi
    rcases hmem i hi with ⟨k, hk, heq⟩
    rw [heq]
    exact (sol10_polynomial_bound (q : ℤ) hq0 _ cz f).1
  have hinj : Set.InjOn (fun j => (((T.getD j (0, 0)).1 : ℤ) : ZMod q))
      (Finset.range T.length : Finset ℕ) := by
    intro i hi j hj hij
    simp only [Finset.coe_range, Set.mem_Iio] at hi hj
    rcases hmem i hi with ⟨a, ha, hxa⟩
    rcases hmem j hj with ⟨b, hb, hxb⟩
    have hij' : (((T.getD i (0, 0)).1 : ℤ) : ZMod q)
        = (((T.getD j (0, 0)).1 : ℤ) : ZMod q) := hij
    have hra := hxrange _ (hxk a ha)
    have hrb := hxrange _ (hxk b hb)
    have hfst : (T.getD i (0, 0)).1 = (T.getD j (0, 0)).1 := by
      refine int_eq_of_cast_eq q _ _ hij' ?_ ?_
      · rw [hxa]
        exact ⟨hra.1, hra.2⟩
      · rw [hxb]
        exact ⟨hrb.1, hrb.2⟩
    have hlen : i < (T.map Prod.fst).length := by rwa [List.length_map]
    have hlen' : j < (T.map Prod.fst).length := by rwa [List.length_map]
    have hget : (T.map Prod.fst).get ⟨i, hlen⟩ = (T.map Prod.fst).get ⟨j, hlen'⟩ := by
      simp only [List.get_eq_getElem, List.getElem_map]
      rw [← List.getD_eq_getElem T (0, 0) hi, ← List.getD_eq_getElem T (0, 0) hj]
      exact hfst
    exact congrArg Fin.val (hTnd.get_inj_iff.mp hget)
  have hlag := lagrange_at_zero_list q T Q hinj hQdeg hy
  -- facts about the partial decryptions
  have hDlen : D.length = T.length := by rw [hD, List.length_map]
  have hDget : ∀ i, i < T.length →
      D.getD i (0, 0) = ((T.getD i (0, 0)).1, power R (T.getD i (0, 0)).2 (p : ℤ)) := by
    intro i hi
    rw [hD, getD_pair_map T _ i hi]
    rfl
  have hd : ∀ i, i < D.length → (D.getD i (0, 0)).2 % (p : ℤ) ≠ 0 := by
    intro i hi
    rw [hDlen] at hi
    rw [hDget i hi]
    have hb := power_bound R (T.getD i (0, 0)).2 (p : ℤ) hp0
    rw [Int.emod_eq_of_lt hb.1 hb.2]
    intro h0
    have : ((power R (T.getD i (0, 0)).2 (p : ℤ) : ℤ) : ZMod p) = 0 := by
      rw [h0]
      norm_num
    rw [power_cast p R _ (Or.inl hRmod)] at this
    exact pow_ne_zero _ hRne this
  -- the integer exponent equals s modulo q
  set E : ℕ := ∑ i ∈ Finset.range T.length,
    (T.getD i (0, 0)).2.toNat * (Sol10.lagExp D (q : ℤ) i).toNat with hE
  have hEcast : ((E : ℕ) : ZMod q) = (s : ZMod q) := by
    rw [hE]
    push_cast
    rw [← hQ0, ← hlag]
    refine Finset.sum_congr rfl fun i hi => ?_
    have hil : i < T.length := Finset.mem_range.mp hi
    have h1 : (((T.getD i (0, 0)).2.toNat : ℕ) : ZMod q)
        = (((T.getD i (0, 0)).2 : ℤ) : ZMod q) := by
      rw [show (((T.getD i (0, 0)).2.toNat : ℕ) : ZMod q)
          = ((((T.getD i (0, 0)).2.toNat : ℕ) : ℤ) : ZMod q) from (Int.cast_natCast _).symm]
      rw [Int.toNat_of_nonneg (hy0 i hil)]
    have h2 : (((Sol10.lagExp D (q : ℤ) i).toNat : ℕ) : ZMod q)
        = ((Sol10.lagExp D (q : ℤ) i : ℤ) : ZMod q) := by
      rw [show (((Sol10.lagExp D (q : ℤ) i).toNat : ℕ) : ZMod q)
          = ((((Sol10.lagExp D (q : ℤ) i).toNat : ℕ) : ℤ) : ZMod q) from (Int.cast_natCast _).symm]
      rw [Int.toNat_of_nonneg (lagExp_nonneg D (q : ℤ) hq0 i)]
    rw [h1, h2, lagExp_cast q D i, hDlen]
    have hprods : ∏ j ∈ Finset.range T.length,
        (if i ≠ j then
          ((D.getD j (0, 0)).1 : ZMod q) *
            (((D.getD j (0, 0)).1 : ZMod q) - ((D.getD i (0, 0)).1 : ZMod q))⁻¹
        else 1)
        = ∏ j ∈ Finset.range T.length,
          (if i ≠ j then
            ((T.getD j (0, 0)).1 : ZMod q) *
              (((T.getD j (0, 0)).1 : ZMod q) - ((T.getD i (0, 0)).1 : ZMod q))⁻¹
          else 1) := by
      refine Finset.prod_congr rfl fun j hj => ?_
      have hjl : j < T.length := Finset.mem_range.mp hj
      rw [hDget j hjl, hDget i hil]
    rw [hprods, prod_ite_ne q T.length i hil
      (fun j => ((T.getD j (0, 0)).1 : ZMod q) *
        (((T.getD j (0, 0)).1 : ZMod q) - ((T.getD i (0, 0)).1 : ZMod q))⁻¹)]
    rw [Finset.prod_mul_distrib, Finset.prod_inv_distrib]
    ring
  have hEmod : E ≡ s.toNat [MOD q] := by
    refine (ZMod.natCast_eq_natCast_iff _ _ _).mp ?_
    rw [hEcast]
    rw [show ((s.toNat : ℕ) : ZMod q) = (((s.toNat : ℕ) : ℤ) : ZMod q) from (Int.cast_natCast _).symm]
    rw [Int.toNat_of_nonneg hs0]
  -- the recombined mask is R ^ s
  have hprodcast :
      (((List.range D.length).foldl
          (fun prod i =>
            prod * power (D.getD i (0, 0)).2 (Sol10.lagExp D (q : ℤ) i) (p : ℤ) % (p : ℤ))
          1 : ℤ) : ZMod p)
        = ((R : ℤ) : ZMod p) ^ s.toNat := by
    rw [recover_prodfold_cast p D (q : ℤ) hd D.length (le_refl _) 1]
    rw [Int.cast_one, one_mul]
    have hterm : ∀ i ∈ Finset.range D.length,
        ((D.getD i (0, 0)).2 : ZMod p) ^ (Sol10.lagExp D (q : ℤ) i).toNat
          = ((R : ℤ) : ZMod p) ^
              ((T.getD i (0, 0)).2.toNat * (Sol10.lagExp D (q : ℤ) i).toNat) := by
      intro i hi
      have hil : i < T.length := by
        rw [← hDlen]
        exact Finset.mem_range.mp hi
      rw [hDget i hil, show ((T.getD i (0, 0)).1,
          power R (T.getD i (0, 0)).2 (p : ℤ)).2 = power R (T.getD i (0, 0)).2 (p : ℤ) from rfl]
      rw [power_cast p R _ (Or.inl hRmod), ← pow_mul]
    rw [Finset.prod_congr rfl hterm, Finset.prod_pow_eq_pow_sum, hDlen, ← hE]
    exact pow_congr_of_pow_eq_one _ q hq.ne_zero hRq E s.toNat hEmod
  -- conclude
  have hrecb : 0 ≤ Sol10.recover (p : ℤ) (q : ℤ) g D cEnc ∧
      Sol10.recover (p : ℤ) (q : ℤ) g D cEnc < (p : ℤ) := by
    unfold Sol10.recover
    exact ⟨Int.emod_nonneg _ (ne_of_gt hp0), Int.emod_lt_of_pos _ hp0⟩
  have hcast : ((Sol10.recover (p : ℤ) (q : ℤ) g D cEnc : ℤ) : ZMod p) = (m : ZMod p) := by
    unfold Sol10.recover
    rw [intCast_emod_zmod]
    push_cast
    rw [modInverse_cast p, hprodcast, hc2, intCast_emod_zmod]
    push_cast
    rw [power_cast p pk r (Or.inl hpkmod), hpkcast, hRcast]
    rw [← pow_mul, ← pow_mul]
    rw [show r.toNat * s.toNat = s.toNat * r.toNat from Nat.mul_comm _ _]
    rw [mul_comm ((g : ZMod p) ^ (s.toNat * r.toNat)) (m : ZMod p), mul_assoc]
    rw [mul_inv_cancel₀ (pow_ne_zero _ hgne), mul_one]
  exact int_eq_of_cast_eq p _ _ hcast ⟨hrecb.1, hrecb.2⟩ ⟨hm0, hmp⟩

theorem threshold_elgamal_roundtrip_witness :
    Nat.Prime 11 ∧ Nat.Prime 5 ∧ ((3 : ℤ) : ZMod 11) ^ 5 = 1 ∧
    (∀ t ∈ [((2 : ℤ), (4 : ℤ)), (1, 3)],
      t ∈ (Sol10.KeyGen ((11 : ℕ) : ℤ) ((5 : ℕ) : ℤ) 3 2 1 2 [1, 2] [1]).2) ∧
    Sol10.recover ((11 : ℕ) : ℤ) ((5 : ℕ) : ℤ) 3
      ([((2 : ℤ), (4 : ℤ)), (1, 3)].map fun t =>
        Sol10.decrypt ((11 : ℕ) : ℤ) ((5 : ℕ) : ℤ) 3
          (Sol10.KeyGen ((11 : ℕ) : ℤ) ((5 : ℕ) : ℤ) 3 2 1 2 [1, 2] [1]).1 t
          (Sol10.encrypt ((11 : ℕ) : ℤ) ((5 : ℕ) : ℤ) 3
            (Sol10.KeyGen ((11 : ℕ) : ℤ) ((5 : ℕ) : ℤ) 3 2 1 2 [1, 2] [1]).1 7 2))
      (Sol10.encrypt ((11 : ℕ) : ℤ) ((5 : ℕ) : ℤ) 3
        (Sol10.KeyGen ((11 : ℕ) : ℤ) ((5 : ℕ) : ℤ) 3 2 1 2 [1, 2] [1]).1 7 2) = 7 :=
  ⟨by decide, by decide, by decide, by decide,
    threshold_elgamal_roundtrip 11 5 (by decide) (by decide) 3 (by decide)
      (by decide) 2 (by decide) (by decide) 1 2 (by decide) [1] rfl [1, 2]
      (by decide) (by decide) (by decide) 7 (by decide) (by decide) 2
      [(2, 4), (1, 3)] (by decide) rfl (by decide)⟩

/-! ### The accumulator: claims C4, C6, C9, C10 -/

lemma coprime_mod_of_coprime (a n : ℕ) (h : Nat.Coprime a n) :
    Nat.Coprime (a % n) n := by
  rw [Nat.Coprime, ← Nat.gcd_rec n a, Nat.gcd_comm]
  exact h

lemma getD_range_map {α : Type*} (g : ℕ → α) (n k : ℕ) (hk : k < n) (d : α) :
    ((List.range n).map g).getD k d = g k := by
  rw [List.getD_eq_getElem _ _ (by rw [List.length_map, List.length_range]; exact hk)]
  rw [List.getElem_map, List.getElem_range]

/-- `invMod` (Python `pow(a, -1, m)`) really inverts: for `a` coprime
to `m > 1`, `a * invMod a m ≡ 1 (mod m)`. -/
lemma invMod_spec (a m : ℕ) (hm : 1 < m) (h : Nat.Coprime a m) :
    a * Acc.invMod a m % m = 1 := by
  haveI : NeZero m := ⟨by omega⟩
  set u : (ZMod m)ˣ := ZMod.unitOfCoprime a h with hu
  set b : ℕ := ((u⁻¹ : (ZMod m)ˣ) : ZMod m).val with hb
  have hbm : b < m := ZMod.val_lt _
  have hab : a * b % m = 1 := by
    have hcast : ((a * b : ℕ) : ZMod m) = ((1 : ℕ) : ZMod m) := by
      push_cast
      rw [hb, ZMod.natCast_val, ZMod.cast_id]
      have : ((a : ZMod m)) = (u : ZMod m) := by rw [hu]; rfl
      rw [this, ← Units.val_mul, mul_inv_cancel, Units.val_one]
    have := (ZMod.natCast_eq_natCast_iff _ _ _).mp hcast
    have h1 : 1 % m = 1 := Nat.mod_eq_of_lt hm
    rwa [Nat.ModEq, h1] at this
  unfold Acc.invMod
  cases hfind : (List.range m).find? (fun b' => a * b' % m == 1) with
  | none =>
    exfalso
    have hcontra := List.find?_eq_none.mp hfind b (List.mem_range.mpr hbm)
    rw [beq_iff_eq] at hcontra
    exact hcontra hab
  | some b' =>
    have hfound := List.find?_some hfind
    rw [beq_iff_eq] at hfound
    simpa using hfound

/-- For `a` coprime to `N`, `a ^ e mod N` only depends on
`e mod totient N`. -/
lemma nat_pow_congr (N a : ℕ) (ha : a.Coprime N) (e1 e2 : ℕ)
    (he : e1 ≡ e2 [MOD Nat.totient N]) : a ^ e1 ≡ a ^ e2 [MOD N] := by
  have key : ∀ e : ℕ, a ^ e ≡ a ^ (e % Nat.totient N) [MOD N] := by
    intro e
    conv_lhs => rw [← Nat.div_add_mod e (Nat.totient N)]
    rw [pow_add, pow_mul]
    calc (a ^ Nat.totient N) ^ (e / Nat.totient N) * a ^ (e % Nat.totient N)
        ≡ 1 ^ (e / Nat.totient N) * a ^ (e % Nat.totient N) [MOD N] :=
          Nat.ModEq.mul_right _ (Nat.ModEq.pow _ (Nat.ModEq.pow_totient ha))
      _ = a ^ (e % Nat.totient N) := by rw [one_pow, one_mul]
  calc a ^ e1 ≡ a ^ (e1 % Nat.totient N) [MOD N] := key e1
    _ = a ^ (e2 % Nat.totient N) := by rw [he]
    _ ≡ a ^ e2 [MOD N] := (key e2).symm

lemma totient_pq (p q : ℕ) (hp : p.Prime) (hq : q.Prime) (hpq : p ≠ q) :
    Nat.totient (p * q) = (p - 1) * (q - 1) := by
  rw [Nat.totient_mul ((Nat.coprime_primes hp hq).mpr hpq),
    Nat.totient_prime hp, Nat.totient_prime hq]

lemma phi_gt_one (p q : ℕ) (hp : p.Prime) (hq : q.Prime) (hpq : p ≠ q) :
    1 < (p - 1) * (q - 1) := by
  have hp2 := hp.two_le
  have hq2 := hq.two_le
  rcases Nat.lt_or_ge 2 p with h3 | h3
  · have h1 : 2 ≤ p - 1 := by omega
    have h2 : 1 ≤ q - 1 := by omega
    calc 1 < 2 * 1 := by omega
      _ ≤ (p - 1) * (q - 1) := Nat.mul_le_mul h1 h2
  · have hp2' : p = 2 := by omega
    have hq3 : 3 ≤ q := by omega
    calc 1 < 1 * 2 := by omega
      _ ≤ (p - 1) * (q - 1) := Nat.mul_le_mul (by omega) (by omega)

lemma pyIdx_ofNat (i len : ℕ) : Acc.pyIdx (i : ℤ) len = i := by
  unfold Acc.pyIdx
  rw [if_neg (by omega)]
  exact Int.toNat_natCast i

/-- The strengthened state invariant of the accumulator: shapes,
bounds, coprimality, and the membership equation
`w[i] ^ H(i, x[i]) ≡ alpha (mod N)` for every slot. -/
def AccInv (p q n : ℕ) (H : ℤ → String → ℕ) (st : Acc.AccState) : Prop :=
  st.N = p * q ∧ st.phi = (p - 1) * (q - 1) ∧ st.n = n ∧
  st.x.length = n ∧ st.w.length = n ∧
  st.alpha < st.N ∧ st.alpha.Coprime st.N ∧
  ∀ i, i < n → st.w.getD i 0 < st.N ∧ (st.w.getD i 0).Coprime st.N ∧
    (st.w.getD i 0) ^ (H (i : ℤ) (st.x.getD i "")) % st.N = st.alpha

lemma accInv_init (p q : ℕ) (hp : p.Prime) (hq : q.Prime) (hpq : p ≠ q)
    (H : ℤ → String → ℕ)
    (hH : ∀ (i : ℤ) (v : String), (H i v).Coprime ((p - 1) * (q - 1)))
    (n r : ℕ) (hr : r.Coprime (p * q)) :
    AccInv p q n H (Acc.init H p q n r) := by
  have hN1 : 1 < p * q := by
    have := hp.two_le
    have := hq.two_le
    calc 1 < 2 * 2 := by omega
      _ ≤ p * q := Nat.mul_le_mul hp.two_le hq.two_le
  have hN0 : 0 < p * q := by omega
  have hphi1 : 1 < (p - 1) * (q - 1) := phi_gt_one p q hp hq hpq
  have htot : Nat.totient (p * q) = (p - 1) * (q - 1) := totient_pq p q hp hq hpq
  unfold AccInv Acc.init
  dsimp only
  refine ⟨rfl, rfl, rfl, List.length_replicate _ _, by rw [List.length_map, List.length_range], ?_, ?_, ?_⟩
  · exact Nat.mod_lt _ hN0
  · exact coprime_mod_of_coprime _ _ (Nat.Coprime.pow_left _ hr)
  · intro i hi
    rw [getD_range_map _ n i hi]
    set alpha := Acc.pypow r (((List.range n).map fun (i : ℕ) => Acc.invMod (H (i : ℤ) "") ((p - 1) * (q - 1)) % (p * q)).prod) (p * q) with halpha
    have halb : alpha < p * q := Nat.mod_lt _ hN0
    have halc : alpha.Coprime (p * q) :=
      coprime_mod_of_coprime _ _ (Nat.Coprime.pow_left _ hr)
    have hxi : (List.replicate n "").getD i "" = "" := by
      rw [List.getD_eq_getElem _ _ (by rwa [List.length_replicate])]
      simp
    rw [hxi]
    set e := H (i : ℤ) "" with he
    refine ⟨Nat.mod_lt _ hN0, coprime_mod_of_coprime _ _ (Nat.Coprime.pow_left _ halc), ?_⟩
    show (alpha ^ Acc.invMod e ((p - 1) * (q - 1)) % (p * q)) ^ e % (p * q) = alpha
    rw [← Nat.pow_mod, ← pow_mul]
    have hcongr : alpha ^ (Acc.invMod e ((p - 1) * (q - 1)) * e) ≡ alpha ^ 1 [MOD p * q] := by
      refine nat_pow_congr (p * q) alpha halc _ _ ?_
      rw [htot]
      show _ ≡ _ [MOD (p - 1) * (q - 1)]
      have hinv : e * Acc.invMod e ((p - 1) * (q - 1)) % ((p - 1) * (q - 1)) = 1 :=
        invMod_spec e _ hphi1 (hH _ _)
      show Acc.invMod e ((p - 1) * (q - 1)) * e ≡ 1 [MOD (p - 1) * (q - 1)]
      rw [Nat.ModEq, Nat.mul_comm, hinv, Nat.mod_eq_of_lt hphi1]
    rw [pow_one] at hcongr
    have := hcongr
    rw [Nat.ModEq] at this
    rw [this, Nat.mod_eq_of_lt halb]

lemma accInv_update (p q : ℕ) (hp : p.Prime) (hq : q.Prime) (hpq : p ≠ q)
    (H : ℤ → String → ℕ)
    (hH : ∀ (i : ℤ) (v : String), (H i v).Coprime ((p - 1) * (q - 1)))
    (n : ℕ) (st : Acc.AccState) (hInv : AccInv p q n H st)
    (i : ℤ) (hi0 : 0 ≤ i) (hin : i < (n : ℤ)) (v : String) :
    AccInv p q n H (Acc.update H st i v).2 := by
  obtain ⟨hN, hphi, hn, hxlen, hwlen, hab, hac, hslot⟩ := hInv
  have hN1 : 1 < p * q := by
    calc 1 < 2 * 2 := by omega
      _ ≤ p * q := Nat.mul_le_mul hp.two_le hq.two_le
  have hN0 : 0 < p * q := by omega
  have hphi1 : 1 < (p - 1) * (q - 1) := phi_gt_one p q hp hq hpq
  have htot : Nat.totient (p * q) = (p - 1) * (q - 1) := totient_pq p q hp hq hpq
  set k : ℕ := i.toNat with hk
  have hkn : k < n := by omega
  have hik : i = (k : ℤ) := by omega
  have hidx : Acc.pyIdx i st.x.length = k := by
    rw [hik, pyIdx_ofNat]
  unfold Acc.update
  rw [hidx]
  by_cases hxv : st.x.getD k "" = v
  · rw [if_pos hxv]
    exact ⟨hN, hphi, hn, hxlen, hwlen, hab, hac, hslot⟩
  · rw [if_neg hxv]
    set pv := H i v with hpv
    set px := H i (st.x.getD k "") with hpx
    set hi := Acc.invMod px st.phi with hhi
    refine ⟨hN, hphi, hn, by rw [List.length_set]; exact hxlen,
      by rw [List.length_map, List.length_range, hn], ?_, ?_, ?_⟩
    · show Acc.pypow st.alpha (hi * pv) st.N < st.N
      unfold Acc.pypow
      rw [hN]
      exact Nat.mod_lt _ hN0
    · show (Acc.pypow st.alpha (hi * pv) st.N).Coprime st.N
      unfold Acc.pypow
      rw [hN] at hac ⊢
      exact coprime_mod_of_coprime _ _ (Nat.Coprime.pow_left _ hac)
    · intro j hj
      have hwj := hslot j hj
      have hwget : ((List.range st.n).map fun (j' : ℕ) =>
          if (j' : ℤ) = i then st.w.getD j' 0
          else Acc.pypow (st.w.getD j' 0) (hi * pv) st.N).getD j 0
          = if (j : ℤ) = i then st.w.getD j 0
            else Acc.pypow (st.w.getD j 0) (hi * pv) st.N := by
        rw [hn]
        exact getD_range_map _ n j hj 0
      have hxget : (st.x.set k v).getD j "" = if k = j then v else st.x.getD j "" := by
        rw [List.getD_eq_getElem _ _ (by rw [List.length_set]; omega),
          List.getElem_set]
        by_cases hkj : k = j
        · rw [if_pos hkj, if_pos hkj]
        · rw [if_neg hkj, if_neg hkj, ← List.getD_eq_getElem _ _ (by omega)]
      show _ ∧ _ ∧ ((List.range st.n).map _).getD j 0 ^ H (j : ℤ) ((st.x.set k v).getD j "") % st.N
        = Acc.pypow st.alpha (hi * pv) st.N
      rw [hwget, hxget]
      by_cases hkj : (j : ℤ) = i
      · have hkj' : k = j := by omega
        rw [if_pos hkj, if_pos hkj']
        refine ⟨hwj.1, hwj.2.1, ?_⟩
        -- slot i's own witness is untouched; its new exponent is pv
        have hjv : H (j : ℤ) v = pv := by rw [hpv, hkj]
        rw [hjv]
        unfold Acc.pypow
        have hwpx : st.w.getD j 0 ^ px ≡ st.alpha [MOD st.N] := by
          have h1 := hwj.2.2
          have hpx' : px = H (j : ℤ) (st.x.getD j "") := by
            rw [hpx, hik, hkj']
          rw [hpx']
          show _ % st.N = st.alpha % st.N
          rw [h1, Nat.mod_eq_of_lt hab]
        have hchain : st.w.getD j 0 ^ pv ≡ st.alpha ^ (hi * pv) [MOD st.N] := by
          have hstep1 : st.w.getD j 0 ^ pv ≡ st.w.getD j 0 ^ (px * hi * pv) [MOD st.N] := by
            rw [hN]
            refine nat_pow_congr (p * q) _ (by rw [← hN]; exact hwj.2.1) _ _ ?_
            rw [htot]
            have hinv : px * Acc.invMod px ((p - 1) * (q - 1)) % ((p - 1) * (q - 1)) = 1 :=
              invMod_spec px _ hphi1 (by rw [hpx]; exact hH _ _)
            have h1 : px * hi ≡ 1 [MOD (p - 1) * (q - 1)] := by
              rw [hhi, hphi, Nat.ModEq, hinv, Nat.mod_eq_of_lt hphi1]
            calc pv = 1 * pv := (one_mul pv).symm
              _ ≡ px * hi * pv [MOD (p - 1) * (q - 1)] := (Nat.ModEq.mul_right pv h1).symm
          have hstep2 : st.w.getD j 0 ^ (px * hi * pv) ≡ st.alpha ^ (hi * pv) [MOD st.N] := by
            rw [mul_assoc, pow_mul]
            exact Nat.ModEq.pow _ hwpx
          exact hstep1.trans hstep2
        rw [Nat.ModEq] at hchain
        rw [hchain]
      · have hkj' : ¬ (k = j) := by omega
        rw [if_neg hkj, if_neg hkj']
        unfold Acc.pypow
        refine ⟨Nat.mod_lt _ (by omega), ?_, ?_⟩
        · rw [hN] at hwj ⊢
          exact coprime_mod_of_coprime _ _ (Nat.Coprime.pow_left _ hwj.2.1)
        · rw [← Nat.pow_mod, ← pow_mul]
          have h1 : st.w.getD j 0 ^ (hi * pv * H (j : ℤ) (st.x.getD j ""))
              = (st.w.getD j 0 ^ H (j : ℤ) (st.x.getD j "")) ^ (hi * pv) := by
            rw [← pow_mul, Nat.mul_comm]
          rw [h1]
          have h2 : (st.w.getD j 0 ^ H (j : ℤ) (st.x.getD j "")) ^ (hi * pv)
              ≡ st.alpha ^ (hi * pv) [MOD st.N] := by
            refine Nat.ModEq.pow _ ?_
            show _ % st.N = st.alpha % st.N
            rw [hwj.2.2, Nat.mod_eq_of_lt hab]
          rw [Nat.ModEq] at h2
          rw [h2]

lemma accInv_runUpdates (p q : ℕ) (hp : p.Prime) (hq : q.Prime) (hpq : p ≠ q)
    (H : ℤ → String → ℕ)
    (hH : ∀ (i : ℤ) (v : String), (H i v).Coprime ((p - 1) * (q - 1)))
    (n : ℕ) (ops : List (ℤ × String))
    (hops : ∀ op ∈ ops, 0 ≤ op.1 ∧ op.1 < (n : ℤ)) (st : Acc.AccState)
    (hInv : AccInv p q n H st) :
    AccInv p q n H (Acc.runUpdates H st ops) := by
  induction ops generalizing st with
  | nil => exact hInv
  | cons op ops ih =>
    have hop := hops op (List.mem_cons_self op ops)
    exact ih (fun o ho => hops o (List.mem_cons_of_mem op ho)) _
      (accInv_update p q hp hq hpq H hH n st hInv op.1 hop.1 hop.2 op.2)

lemma accInv_is_member (p q : ℕ) (hp : p.Prime) (hq : q.Prime) (hpq : p ≠ q)
    (H : ℤ → String → ℕ)
    (hH : ∀ (i : ℤ) (v : String), (H i v).Coprime ((p - 1) * (q - 1)))
    (n : ℕ) (st : Acc.AccState) (hInv : AccInv p q n H st)
    (i : ℕ) (hi : i < n) :
    Acc.is_member H st (i : ℤ) (st.x.getD i "") = true := by
  obtain ⟨hN, hphi, hn, hxlen, hwlen, hab, hac, hslot⟩ := hInv
  unfold Acc.is_member Acc.proof
  rw [hxlen, hwlen, pyIdx_ofNat]
  rw [if_neg (by simp)]
  unfold Acc.pypow
  rw [(hslot i hi).2.2]
  exact beq_self_eq_true st.alpha

/-- C4 counterexample: the claim's hypotheses (base coprime to `N`,
hash exponents prime and coprime to `phi`) are not sufficient -- they
omit the primality of `p` and `q`.  With the composite `p = 9`,
`q = 5`, capacity `1`, base `r = 2` (coprime to `45`) and the constant
prime hash `3` (coprime to `phi = 32`), already after `__init__` slot
`0` fails the membership equation: `is_member(0, x[0])` is `false`. -/
theorem accumulator_invariant_counterexample :
    Nat.Prime 3 ∧ Nat.Coprime 3 ((9 - 1) * (5 - 1)) ∧ Nat.Coprime 2 (9 * 5) ∧
    Acc.is_member (fun _ _ => 3) (Acc.init (fun _ _ => 3) 9 5 1 2) 0
      ((Acc.init (fun _ _ => 3) 9 5 1 2).x.getD 0 "") = false := by decide

/-- C4 (amended): for `p` and `q` *distinct primes*, base `r` coprime
to `N = p * q`, and every hash exponent coprime to
`phi = (p - 1) * (q - 1)`, after `__init__` and any sequence of update
calls with in-range slot indices, every slot `i` satisfies
`w[i] ^ H(i, x[i]) ≡ alpha (mod N)`, so `is_member(i, x[i])` is true
for the stored value of every slot. -/
theorem accumulator_invariant (p q : ℕ) (hp : p.Prime) (hq : q.Prime)
    (hpq : p ≠ q) (H : ℤ → String → ℕ)
    (hH : ∀ (i : ℤ) (v : String), (H i v).Coprime ((p - 1) * (q - 1)))
    (n r : ℕ) (hr : r.Coprime (p * q))
    (ops : List (ℤ × String)) (hops : ∀ op ∈ ops, 0 ≤ op.1 ∧ op.1 < (n : ℤ))
    (i : ℕ) (hi : i < n) :
    ((Acc.runUpdates H (Acc.init H p q n r) ops).w.getD i 0)
        ^ (H (i : ℤ) ((Acc.runUpdates H (Acc.init H p q n r) ops).x.getD i ""))
        % (Acc.runUpdates H (Acc.init H p q n r) ops).N
      = (Acc.runUpdates H (Acc.init H p q n r) ops).alpha ∧
    Acc.is_member H (Acc.runUpdates H (Acc.init H p q n r) ops) (i : ℤ)
      ((Acc.runUpdates H (Acc.init H p q n r) ops).x.getD i "") = true := by
  have hInv := accInv_runUpdates p q hp hq hpq H hH n ops hops _
    (accInv_init p q hp hq hpq H hH n r hr)
  exact ⟨(hInv.2.2.2.2.2.2.2 i hi).2.2,
    accInv_is_member p q hp hq hpq H hH n _ hInv i hi⟩

theorem accumulator_invariant_witness :
    Nat.Prime 3 ∧ Nat.Prime 5 ∧ Nat.Coprime 2 (3 * 5) ∧
    Acc.is_member (fun _ _ => 3)
      (Acc.runUpdates (fun _ _ => 3) (Acc.init (fun _ _ => 3) 3 5 1 2) [(0, "a")])
      (0 : ℤ)
      ((Acc.runUpdates (fun _ _ => 3)
        (Acc.init (fun _ _ => 3) 3 5 1 2) [(0, "a")]).x.getD 0 "") = true :=
  ⟨by decide, by decide, by decide,
    (accumulator_invariant 3 5 (by decide) (by decide) (by decide)
      (fun _ _ => 3)
      (fun _ _ => (by decide : Nat.Coprime 3 ((3 - 1) * (5 - 1))))
      1 2 (by decide) [(0, "a")] (by decide) 0 (by decide)).2⟩

/-- C6 counterexample: after `update(0, "x")` returns true on a
freshly initialized accumulator (`p = 3, q = 5, n = 1, r = 2`, hash
`3` for the empty sentinel and `5` otherwise), slot 0's witness is
still its old value `2` -- it is not set to the pre-update accumulator
value `alpha = 8`. -/
theorem update_own_witness_counterexample :
    (Acc.init (fun _ v => if v = "" then 3 else 5) 3 5 1 2).alpha = 8 ∧
    (Acc.update (fun _ v => if v = "" then 3 else 5)
      (Acc.init (fun _ v => if v = "" then 3 else 5) 3 5 1 2) 0 "x").1 = true ∧
    (Acc.update (fun _ v => if v = "" then 3 else 5)
      (Acc.init (fun _ v => if v = "" then 3 else 5) 3 5 1 2) 0 "x").2.w.getD 0 0 = 2 ∧
    (2 : ℕ) ≠ 8 := by decide

/-- C6 (amended): after every `update(i, newValue)` call that returns
true (in-range `i`, `newValue` different from the stored value), slot
`i`'s own witness is left *unchanged* -- the code never writes `w[i]`
(and it is this unchanged witness, not `alpha`-before-update, that
preserves the membership invariant, as proved in
`accumulator_invariant`). -/
theorem update_own_witness (H : ℤ → String → ℕ) (st : Acc.AccState) (i : ℕ)
    (v : String) (hi : i < st.n) (hv : st.x.getD i "" ≠ v) :
    (Acc.update H st (i : ℤ) v).1 = true ∧
    (Acc.update H st (i : ℤ) v).2.w.getD i 0 = st.w.getD i 0 := by
  unfold Acc.update
  rw [pyIdx_ofNat, if_neg hv]
  refine ⟨rfl, ?_⟩
  show ((List.range st.n).map _).getD i 0 = st.w.getD i 0
  rw [getD_range_map _ st.n i hi, if_pos rfl]

theorem update_own_witness_witness :
    (0 : ℕ) < (Acc.init (fun _ v => if v = "" then 3 else 5) 3 5 1 2).n ∧
    (Acc.init (fun _ v => if v = "" then 3 else 5) 3 5 1 2).x.getD 0 "" ≠ "x" ∧
    (Acc.update (fun _ v => if v = "" then 3 else 5)
        (Acc.init (fun _ v => if v = "" then 3 else 5) 3 5 1 2) ((0 : ℕ) : ℤ) "x").2.w.getD 0 0
      = (Acc.init (fun _ v => if v = "" then 3 else 5) 3 5 1 2).w.getD 0 0 :=
  ⟨by decide, by decide,
    (update_own_witness (fun _ v => if v = "" then 3 else 5)
      (Acc.init (fun _ v => if v = "" then 3 else 5) 3 5 1 2) 0 "x"
      (by decide) (by decide)).2⟩

/-- C9: a repeated update is a pure no-op.  If the in-range slot `i`
already stores `v`, `update(i, v)` returns `false` and the entire
state -- `alpha`, every witness, every stored value -- is returned
unchanged (the equality check happens before any mutation). -/
theorem update_noop (H : ℤ → String → ℕ) (st : Acc.AccState) (i : ℕ)
    (v : String) (_hi : i < st.n) (hxv : st.x.getD i "" = v) :
    Acc.update H st (i : ℤ) v = (false, st) := by
  unfold Acc.update
  rw [pyIdx_ofNat, if_pos hxv]

theorem update_noop_witness :
    (0 : ℕ) < (Acc.init (fun _ _ => 3) 3 5 1 2).n ∧
    (Acc.init (fun _ _ => 3) 3 5 1 2).x.getD 0 "" = "" ∧
    Acc.update (fun _ _ => 3) (Acc.init (fun _ _ => 3) 3 5 1 2) ((0 : ℕ) : ℤ) ""
      = (false, Acc.init (fun _ _ => 3) 3 5 1 2) :=
  ⟨by decide, by decide,
    update_noop (fun _ _ => 3) (Acc.init (fun _ _ => 3) 3 5 1 2) 0 ""
      (by decide) (by decide)⟩

/-- C10: negative slot indices are accepted by the public interface.
For `-n ≤ i < 0` and `v` different from the value stored at slot
`n + i`: `update(i, v)` performs only in-bounds accesses
(`(i + n).toNat < n`), returns true, stores `v` at slot `n + i`, and
re-exponentiates the witnesses of *all* `n` slots (the loop guard
`j != i` never fires since `i < 0 ≤ j`), including slot `n + i`'s own
witness -- unlike an in-range update, which leaves it unchanged.
`proof` and `is_member` likewise resolve a negative `i` to slot
`n + i`. -/
theorem update_negative_index (H : ℤ → String → ℕ) (st : Acc.AccState)
    (i : ℤ) (v v' : String) (hxl : st.x.length = st.n) (hwl : st.w.length = st.n)
    (hi0 : -(st.n : ℤ) ≤ i) (hi1 : i < 0)
    (hv : st.x.getD (i + st.n).toNat "" ≠ v) :
    (i + st.n).toNat < st.n ∧
    (Acc.update H st i v).1 = true ∧
    (Acc.update H st i v).2.x = st.x.set (i + st.n).toNat v ∧
    (Acc.update H st i v).2.w = (List.range st.n).map (fun j =>
      Acc.pypow (st.w.getD j 0)
        (Acc.invMod (H i (st.x.getD (i + st.n).toNat "")) st.phi * H i v) st.N) ∧
    Acc.proof H st i v' = Acc.pypow (st.w.getD (i + st.n).toNat 0) (H i v') st.N ∧
    Acc.is_member H st i v'
      = (if st.x.getD (i + st.n).toNat "" ≠ v' then false
         else Acc.proof H st i v' == st.alpha) := by
  have hidx : ∀ len : ℕ, len = st.n → Acc.pyIdx i len = (i + st.n).toNat := by
    intro len hlen
    unfold Acc.pyIdx
    rw [if_pos hi1, hlen]
  refine ⟨by omega, ?_, ?_, ?_, ?_, ?_⟩
  · unfold Acc.update
    rw [hidx st.x.length hxl, if_neg hv]
  · unfold Acc.update
    rw [hidx st.x.length hxl, if_neg hv]
  · unfold Acc.update
    rw [hidx st.x.length hxl, if_neg hv]
    show (List.range st.n).map _ = _
    refine List.map_congr_left fun j hj => ?_
    have hj0 : (0 : ℤ) ≤ (j : ℤ) := Int.natCast_nonneg j
    rw [if_neg (by omega)]
  · unfold Acc.proof
    rw [hidx st.w.length hwl]
  · unfold Acc.is_member
    rw [hidx st.x.length hxl]

theorem update_negative_index_witness :
    (Acc.init (fun _ v => if v = "" then 3 else 5) 3 5 1 2).x.length
      = (Acc.init (fun _ v => if v = "" then 3 else 5) 3 5 1 2).n ∧
    (Acc.init (fun _ v => if v = "" then 3 else 5) 3 5 1 2).x.getD
      ((-1 : ℤ) + (Acc.init (fun _ v => if v = "" then 3 else 5) 3 5 1 2).n).toNat "" ≠ "x" ∧
    (Acc.update (fun _ v => if v = "" then 3 else 5)
        (Acc.init (fun _ v => if v = "" then 3 else 5) 3 5 1 2) (-1) "x").1 = true ∧
    (Acc.update (fun _ v => if v = "" then 3 else 5)
        (Acc.init (fun _ v => if v = "" then 3 else 5) 3 5 1 2) (-1) "x").2.x
      = (Acc.init (fun _ v => if v = "" then 3 else 5) 3 5 1 2).x.set
          ((-1 : ℤ) + (Acc.init (fun _ v => if v = "" then 3 else 5) 3 5 1 2).n).toNat "x" :=
  ⟨by decide, by decide,
    (update_negative_index (fun _ v => if v = "" then 3 else 5)
      (Acc.init (fun _ v => if v = "" then 3 else 5) 3 5 1 2) (-1) "x" "y"
      (by decide) (by decide) (by decide) (by decide) (by decide)).2.1,
    (update_negative_index (fun _ v => if v = "" then 3 else 5)
      (Acc.init (fun _ v => if v = "" then 3 else 5) 3 5 1 2) (-1) "x" "y"
      (by decide) (by decide) (by decide) (by decide) (by decide)).2.2.1⟩
